import Mathlib

set_option maxHeartbeats 1000000

/-!
Verification development for the iterated register coalescing allocator
(Source/JavaScriptCore/b3/air/AirIteratedRegisterCoalescing.cpp) and the
constant-motion pass (Source/JavaScriptCore/b3/B3MoveConstants.cpp).

The C++ is shallowly embedded: the dense arrays indexed by a temporary's
absolute index become Lean functions keyed by the temporary itself (the
absolute index is injective per bank), hash sets become lists with
membership-tested insertion, and the liveness oracle's output at one
instruction is an explicit list of live temporaries.
-/

/-- The two register banks (`Arg::Type`): general purpose and floating point. -/
inductive Bank
  | GP
  | FP
deriving DecidableEq, Repr

/-- An Air temporary: a bank, whether it is a precolored register
(`Tmp::isReg`), and a per-bank index.  This mirrors the information the
allocator queries on a `Tmp`. -/
structure Tmp where
  bank : Bank
  isReg : Bool
  idx : Nat
deriving DecidableEq, Repr

/-- Modelled from the spec: `AirArg.h` (defining `Arg::Role`) is not part
of this repository snapshot; the spec lists the roles as `Use`, `Def`,
`UseDef` and their address-only counterparts. -/
inductive Role
  | Use
  | Def
  | UseDef
  | UseAddr
deriving DecidableEq, Repr

/-- Modelled from the spec: `Arg::isUse(role)` — the role reads the
value (`UseDef` is read-modify-write; an address component is a use). -/
def isUse : Role → Bool
  | .Use => true
  | .Def => false
  | .UseDef => true
  | .UseAddr => true

/-- Modelled from the spec: `Arg::isDef(role)` — the role writes the
value (`UseDef` is read-modify-write). -/
def isDef : Role → Bool
  | .Use => false
  | .Def => true
  | .UseDef => true
  | .UseAddr => false

/-! ## Constant motion (B3MoveConstants.cpp) -/

/-- Opcodes of `ValueKey`s the constant-motion pass distinguishes. -/
inductive KOpcode
  | Const32
  | Const64
  | ConstDouble
  | OtherK (n : Nat)
deriving DecidableEq, Repr

/-- B3 types appearing in the keys of constants. -/
inductive BType
  | Int32T
  | Int64T
  | DoubleT
deriving DecidableEq, Repr

/-- `ValueKey`: opcode, type and the 64-bit payload (a double is stored as
the integer bit-cast of its IEEE representation, so `+0.0` is stored as `0`). -/
structure ValueKey where
  opcode : KOpcode
  ty : BType
  value : Int
deriving DecidableEq, Repr

/-- B3 `Value`s as far as this pass inspects them: the three constant kinds
plus an opaque non-constant. -/
inductive BValue
  | const32 (v : Int)
  | const64 (v : Int)
  | constDouble (bits : Int)
  | otherV (n : Nat)
deriving DecidableEq, Repr

/-- `Value::key()`. -/
def keyOf : BValue → ValueKey
  | .const32 v => ⟨.Const32, .Int32T, v⟩
  | .const64 v => ⟨.Const64, .Int64T, v⟩
  | .constDouble bits => ⟨.ConstDouble, .DoubleT, bits⟩
  | .otherV n => ⟨.OtherK n, .Int64T, 0⟩

/-- `Value::isConstant()`. -/
def isConstant : BValue → Bool
  | .const32 _ => true
  | .const64 _ => true
  | .constDouble _ => true
  | .otherV _ => false

/-- `Value::hasInt()`: true for the integer constants only. -/
def hasInt : BValue → Bool
  | .const32 _ => true
  | .const64 _ => true
  | _ => false

/-- `value->representableAs<int32_t>()` on the constants that have an int. -/
def representableAsInt32 : BValue → Bool
  | .const32 _ => true
  | .const64 v => decide (-(2 ^ 31) ≤ v ∧ v < 2 ^ 31)
  | _ => false

/-- `MoveConstants::needsMotion`: a constant needs motion unless it is an
integer constant representable as an `int32_t`. -/
def needsMotion (v : BValue) : Bool :=
  if !isConstant v then false
  else if hasInt v && representableAsInt32 v then false
  else true

/-- `MoveConstants::doubleZero()`: the key of the double constant `+0.0`. -/
def doubleZero : ValueKey :=
  ⟨.ConstDouble, .DoubleT, 0⟩

/-- `MoveConstants::goesInTable`. -/
def goesInTable (k : ValueKey) : Bool :=
  decide (k.opcode = KOpcode.ConstDouble ∧ ¬k = doubleZero)

/-- The first loop of `MoveConstants::run`, restricted to the keys entered
into `m_constTable`: every value needing motion whose key goes in the table
is added, deduplicated, in procedure order. -/
def tableKeysAux (values : List BValue) (acc : List ValueKey) : List ValueKey :=
  values.foldl
    (fun acc v =>
      if needsMotion v then
        if goesInTable (keyOf v) then
          if keyOf v ∈ acc then acc else acc ++ [keyOf v]
        else acc
      else acc)
    acc

/-- The set of keys placed in the data-section table by `MoveConstants::run`. -/
def tableKeys (values : List BValue) : List ValueKey :=
  tableKeysAux values []

lemma tableKeysAux_cons (v : BValue) (rest : List BValue) (acc : List ValueKey) :
    tableKeysAux (v :: rest) acc =
      tableKeysAux rest
        (if needsMotion v then
          if goesInTable (keyOf v) then
            if keyOf v ∈ acc then acc else acc ++ [keyOf v]
          else acc
        else acc) := rfl

lemma tableKeysAux_mem (values : List BValue) (acc : List ValueKey) (k : ValueKey) :
    k ∈ tableKeysAux values acc ↔
      k ∈ acc ∨ ∃ v, v ∈ values ∧ keyOf v = k ∧ needsMotion v = true ∧
        goesInTable k = true := by
  induction values generalizing acc with
  | nil => simp [tableKeysAux]
  | cons v rest ih =>
    rw [tableKeysAux_cons]
    by_cases h1 : needsMotion v = true
    · rw [if_pos h1]
      by_cases h2 : goesInTable (keyOf v) = true
      · rw [if_pos h2]
        by_cases h3 : keyOf v ∈ acc
        · rw [if_pos h3, ih acc]
          constructor
          · rintro (h | ⟨w, hw, hkey, hm, hg⟩)
            · exact Or.inl h
            · exact Or.inr ⟨w, List.mem_cons_of_mem v hw, hkey, hm, hg⟩
          · rintro (h | ⟨w, hw, hkey, hm, hg⟩)
            · exact Or.inl h
            · rcases List.mem_cons.mp hw with h | h
              · subst h; exact Or.inl (hkey ▸ h3)
              · exact Or.inr ⟨w, h, hkey, hm, hg⟩
        · rw [if_neg h3, ih (acc ++ [keyOf v])]
          constructor
          · rintro (h | ⟨w, hw, hkey, hm, hg⟩)
            · rcases List.mem_append.mp h with h | h
              · exact Or.inl h
              · have hk : k = keyOf v := by simpa using h
                exact Or.inr ⟨v, List.mem_cons_self v rest, hk.symm, h1, hk ▸ h2⟩
            · exact Or.inr ⟨w, List.mem_cons_of_mem v hw, hkey, hm, hg⟩
          · rintro (h | ⟨w, hw, hkey, hm, hg⟩)
            · exact Or.inl (List.mem_append_left _ h)
            · rcases List.mem_cons.mp hw with h | h
              · subst h
                refine Or.inl (hkey ▸ List.mem_append_right _ ?_)
                exact List.mem_singleton.mpr rfl
              · exact Or.inr ⟨w, h, hkey, hm, hg⟩
      · rw [if_neg h2, ih acc]
        constructor
        · rintro (h | ⟨w, hw, hkey, hm, hg⟩)
          · exact Or.inl h
          · exact Or.inr ⟨w, List.mem_cons_of_mem v hw, hkey, hm, hg⟩
        · rintro (h | ⟨w, hw, hkey, hm, hg⟩)
          · exact Or.inl h
          · rcases List.mem_cons.mp hw with h | h
            · subst h; exact absurd (hkey ▸ hg) h2
            · exact Or.inr ⟨w, h, hkey, hm, hg⟩
    · rw [if_neg h1, ih acc]
      constructor
      · rintro (h | ⟨w, hw, hkey, hm, hg⟩)
        · exact Or.inl h
        · exact Or.inr ⟨w, List.mem_cons_of_mem v hw, hkey, hm, hg⟩
      · rintro (h | ⟨w, hw, hkey, hm, hg⟩)
        · exact Or.inl h
        · rcases List.mem_cons.mp hw with h | h
          · subst h; exact absurd hm h1
          · exact Or.inr ⟨w, h, hkey, hm, hg⟩

lemma keyOf_constDouble_of_opcode {v : BValue} {k : ValueKey}
    (hkey : keyOf v = k) (hop : k.opcode = KOpcode.ConstDouble) :
    ∃ bits, v = BValue.constDouble bits := by
  cases v with
  | const32 w => exact absurd (hkey ▸ hop) (by simp [keyOf])
  | const64 w => exact absurd (hkey ▸ hop) (by simp [keyOf])
  | constDouble bits => exact ⟨bits, rfl⟩
  | otherV n => exact absurd (hkey ▸ hop) (by simp [keyOf])

/-- C9: in the constant-motion pass, a key is placed in the data-section
table iff it is the key of a double-precision constant occurring in the
procedure and differs from the key of `+0.0`; in particular `+0.0` itself
never enters the table. -/
theorem tableKeys_iff_constDouble_ne_zero (values : List BValue) :
    (∀ k, k ∈ tableKeys values ↔
      (∃ v, v ∈ values ∧ keyOf v = k) ∧
        k.opcode = KOpcode.ConstDouble ∧ k ≠ doubleZero) ∧
    doubleZero ∉ tableKeys values := by
  have main : ∀ k, k ∈ tableKeys values ↔
      (∃ v, v ∈ values ∧ keyOf v = k) ∧
        k.opcode = KOpcode.ConstDouble ∧ k ≠ doubleZero := by
    intro k
    unfold tableKeys
    rw [tableKeysAux_mem]
    constructor
    · rintro (h | ⟨v, hv, hkey, _, hg⟩)
      · exact absurd h (by simp)
      · have hg' := of_decide_eq_true hg
        exact ⟨⟨v, hv, hkey⟩, hg'.1, hg'.2⟩
    · rintro ⟨⟨v, hv, hkey⟩, hop, hne⟩
      obtain ⟨bits, rfl⟩ := keyOf_constDouble_of_opcode hkey hop
      refine Or.inr ⟨BValue.constDouble bits, hv, hkey, rfl, ?_⟩
      exact decide_eq_true ⟨hop, hne⟩
  refine ⟨main, fun h => ?_⟩
  exact ((main doubleZero).mp h).2.2 rfl

/-- Witness for C9 at a concrete procedure. -/
theorem tableKeys_witness :
    doubleZero ∉
      tableKeys [BValue.constDouble 7, BValue.constDouble 0, BValue.const32 5] :=
  (tableKeys_iff_constDouble_ne_zero
    [BValue.constDouble 7, BValue.constDouble 0, BValue.const32 5]).2

/-! ## Interference edges (AirIteratedRegisterCoalescing.cpp) -/

/-- `m_interferenceEdges`: the membership-tested edge set.  An
`InterferenceEdge` is an unordered pair of distinct temporaries; we store
one orientation and test both. -/
abbrev EdgeSet := List (Tmp × Tmp)

/-- `m_interferenceEdges.contains(InterferenceEdge(a, b))`: the unordered
pair is present under either orientation. -/
def containsEdge (E : EdgeSet) (a b : Tmp) : Bool :=
  decide ((a, b) ∈ E ∨ (b, a) ∈ E)

/-- `IteratedRegisterCoalescingAllocator::addEdge` restricted to its effect
on `m_interferenceEdges`: a self pair is ignored and an already present
pair is not re-added (`isNewEntry`). -/
def addEdgeSet (E : EdgeSet) (a b : Tmp) : EdgeSet :=
  if a = b then E
  else if containsEdge E a b then E
  else (a, b) :: E

lemma containsEdge_comm (E : EdgeSet) (a b : Tmp) :
    containsEdge E a b = containsEdge E b a := by
  simp [containsEdge, Or.comm]

lemma containsEdge_addEdgeSet (E : EdgeSet) (a b x y : Tmp) :
    containsEdge (addEdgeSet E a b) x y = true ↔
      containsEdge E x y = true ∨
        (a ≠ b ∧ ((x = a ∧ y = b) ∨ (x = b ∧ y = a))) := by
  unfold addEdgeSet
  by_cases hab : a = b
  · rw [if_pos hab]
    constructor
    · exact Or.inl
    · rintro (h | ⟨hne, _⟩)
      · exact h
      · exact absurd hab hne
  · rw [if_neg hab]
    by_cases hc : containsEdge E a b = true
    · rw [if_pos hc]
      constructor
      · exact Or.inl
      · rintro (h | ⟨_, hpair⟩)
        · exact h
        · rcases hpair with ⟨hx, hy⟩ | ⟨hx, hy⟩
          · subst hx; subst hy; exact hc
          · subst hx; subst hy; rw [containsEdge_comm]; exact hc
    · rw [if_neg hc]
      unfold containsEdge at *
      rw [decide_eq_true_iff, decide_eq_true_iff]
      constructor
      · rintro (h | h)
        · rcases List.mem_cons.mp h with h | h
          · exact Or.inr ⟨hab, Or.inl ⟨congrArg Prod.fst h, congrArg Prod.snd h⟩⟩
          · exact Or.inl (Or.inl h)
        · rcases List.mem_cons.mp h with h | h
          · exact Or.inr ⟨hab, Or.inr ⟨congrArg Prod.snd h, congrArg Prod.fst h⟩⟩
          · exact Or.inl (Or.inr h)
      · rintro ((h | h) | ⟨_, ⟨hx, hy⟩ | ⟨hx, hy⟩⟩)
        · exact Or.inl (List.mem_cons_of_mem _ h)
        · exact Or.inr (List.mem_cons_of_mem _ h)
        · subst hx; subst hy; exact Or.inl (List.mem_cons_self _ _)
        · subst hx; subst hy; exact Or.inr (List.mem_cons_self _ _)

/-! ## Interference construction (`build`) -/

/-- One `(tmp, role, argType)` triple as enumerated by `Inst::forEachTmp`. -/
structure TmpArg where
  tmp : Tmp
  role : Role
  argType : Bank
deriving DecidableEq, Repr

/-- The def-def phase of `IteratedRegisterCoalescingAllocator::build`: the
nested `forEachTmp` loops.  The inner loop's bank test reads the *outer*
iteration's `argType` (the inner lambda's own type parameter is unnamed in
the source), which is already known to equal `type` at that point. -/
def buildDefDef (type : Bank) (args : List TmpArg) (E : EdgeSet) : EdgeSet :=
  args.foldl
    (fun E1 a =>
      if a.argType ≠ type then E1
      else if isDef a.role then
        args.foldl
          (fun E2 b =>
            if a.argType ≠ type then E2
            else if isDef b.role then addEdgeSet E2 a.tmp b.tmp
            else E2)
          E1
      else E1)
    E

/-- A GP temporary and an FP temporary of the same per-bank index. -/
def gpDefTmp : Tmp := ⟨.GP, false, 1⟩

/-- See `gpDefTmp`. -/
def fpDefTmp : Tmp := ⟨.FP, false, 1⟩

/-- C1: the interference builder can connect the two banks.  Running the GP
bank's def-def phase on an instruction whose `Def` positions hold one GP
temporary and one FP temporary adds an interference edge between the GP
temporary and the FP temporary, because the inner bank check tests the outer
argument's bank.  The claim (and the spec) require every added edge to stay
within one bank, and `AbsoluteTmpHelper<GP>::absoluteIndex` asserts
`tmp.isGP()` on both endpoints, so the code contradicts its own assertion
here. -/
theorem buildDefDef_crosses_banks :
    containsEdge
      (buildDefDef .GP
        [⟨gpDefTmp, .Def, .GP⟩, ⟨fpDefTmp, .Def, .FP⟩] [])
      gpDefTmp fpDefTmp = true ∧
    gpDefTmp.bank = Bank.GP ∧ fpDefTmp.bank = Bank.FP := by
  decide

/-! ## The coalescable-move path of `build` -/

/-- Air opcodes this pass distinguishes: the GP move, the FP move and
everything else. -/
inductive AOpcode
  | Move
  | MoveDouble
  | OtherOp (n : Nat)
deriving DecidableEq, Repr

/-- An instruction argument: a temporary (with its role and bank as
reported by `forEachTmp`) or some non-tmp argument. -/
inductive AirArg
  | tmpArg (t : Tmp) (role : Role) (argType : Bank)
  | nonTmpArg (n : Nat)
deriving DecidableEq, Repr

/-- `Arg::isTmp()`. -/
def argIsTmp : AirArg → Bool
  | .tmpArg .. => true
  | .nonTmpArg _ => false

/-- An Air instruction as far as `build` inspects it. -/
structure AirInst where
  opcode : AOpcode
  args : List AirArg
deriving DecidableEq, Repr

/-- The `(tmp, role, argType)` triples of `Inst::forEachTmp`, in argument
order. -/
def instTmps (inst : AirInst) : List TmpArg :=
  inst.args.filterMap
    (fun a =>
      match a with
      | .tmpArg t r ty => some ⟨t, r, ty⟩
      | .nonTmpArg _ => none)

/-- `MoveInstHelper<type>::mayBeCoalescable`: the bank's move opcode with
two tmp arguments (the two-argument shape is asserted in the source). -/
def mayBeCoalescable (type : Bank) (inst : AirInst) : Bool :=
  match type with
  | .GP =>
    decide (inst.opcode = AOpcode.Move) &&
      (match inst.args with
       | [a, b] => argIsTmp a && argIsTmp b
       | _ => false)
  | .FP =>
    decide (inst.opcode = AOpcode.MoveDouble) &&
      (match inst.args with
       | [a, b] => argIsTmp a && argIsTmp b
       | _ => false)

/-- The `forEachTmp` pass of `build` that records the move's `Def` and
`Use` temporaries (each assignment overwrites the previous one, as in the
source; `none` stands for a never-assigned `Tmp()`). -/
def moveDefUse (ts : List TmpArg) : Option Tmp × Option Tmp :=
  ts.foldl
    (fun acc a => if isDef a.role then (some a.tmp, acc.2) else (acc.1, some a.tmp))
    (none, none)

/-- `Tmp::isGP()`. -/
def Tmp.isGP (t : Tmp) : Bool :=
  decide (t.bank = Bank.GP)

/-- `IteratedRegisterCoalescingAllocator::addEdges`: every `Def` of the
bank interferes with every live temporary of the bank. -/
def addEdges (type : Bank) (ts : List TmpArg) (live : List Tmp) (E : EdgeSet) :
    EdgeSet :=
  ts.foldl
    (fun E1 a =>
      if a.argType = type ∧ isDef a.role = true then
        live.foldl
          (fun E2 liveTmp =>
            if liveTmp.isGP = decide (type = Bank.GP) then addEdgeSet E2 a.tmp liveTmp
            else E2)
          E1
      else E1)
    E

/-- The allocator state touched by `build`: the edge set, the per-tmp move
lists (`m_moveList`, hash sets of instruction pointers, here instruction
ids) and the move worklist (`m_worklistMoves`, an insertion-ordered set). -/
structure BuildState where
  E : EdgeSet
  moveList : Tmp → List Nat
  worklistMoves : List Nat

/-- Membership-tested insertion, modelling `HashSet::add` /
`ListHashSet::add` (insertion order retained). -/
def addToList (l : List Nat) (n : Nat) : List Nat :=
  if n ∈ l then l else l ++ [n]

/-- `m_moveList[absoluteIndex(t)].add(mid)`. -/
def addMoveToList (ml : Tmp → List Nat) (t : Tmp) (mid : Nat) : Tmp → List Nat :=
  fun x => if x = t then addToList (ml t) mid else ml x

/-- `IteratedRegisterCoalescingAllocator::build` for one instruction, given
the instruction id `mid` (standing for the `Inst*`) and the liveness
oracle's `localCalc.live()` after it. -/
def build (type : Bank) (inst : AirInst) (mid : Nat) (live : List Tmp)
    (s : BuildState) : BuildState :=
  let E1 := buildDefDef type (instTmps inst) s.E
  if mayBeCoalescable type inst then
    let ml1 := (instTmps inst).foldl (fun ml a => addMoveToList ml a.tmp mid) s.moveList
    let wl1 := addToList s.worklistMoves mid
    match moveDefUse (instTmps inst) with
    | (some defTmp, some useTmp) =>
      let E2 := live.foldl
        (fun E liveTmp =>
          if liveTmp ≠ useTmp ∧ liveTmp.isGP = decide (type = Bank.GP) then
            addEdgeSet E defTmp liveTmp
          else E)
        E1
      ⟨E2, ml1, wl1⟩
    | _ => ⟨E1, ml1, wl1⟩
  else
    ⟨addEdges type (instTmps inst) live E1, s.moveList, s.worklistMoves⟩

lemma mem_addToList_self (l : List Nat) (n : Nat) : n ∈ addToList l n := by
  unfold addToList
  by_cases h : n ∈ l
  · rwa [if_pos h]
  · rw [if_neg h]
    exact List.mem_append_right _ (List.mem_singleton.mpr rfl)

lemma isGP_eq_iff (L : Tmp) (ty : Bank) :
    (L.isGP = decide (ty = Bank.GP)) ↔ L.bank = ty := by
  cases hty : ty <;> cases hb : L.bank <;> simp [Tmp.isGP, hb]

lemma build_live_fold_mem (ty : Bank) (live : List Tmp) (E : EdgeSet)
    (d u x y : Tmp) :
    containsEdge
      (live.foldl
        (fun E liveTmp =>
          if liveTmp ≠ u ∧ liveTmp.isGP = decide (ty = Bank.GP) then
            addEdgeSet E d liveTmp
          else E)
        E) x y = true ↔
      containsEdge E x y = true ∨
        ∃ L, L ∈ live ∧ L ≠ u ∧ L.bank = ty ∧ d ≠ L ∧
          ((x = d ∧ y = L) ∨ (x = L ∧ y = d)) := by
  induction live generalizing E with
  | nil => simp
  | cons L rest ih =>
    simp only [List.foldl_cons]
    by_cases hcond : L ≠ u ∧ L.isGP = decide (ty = Bank.GP)
    · rw [if_pos hcond, ih, containsEdge_addEdgeSet]
      constructor
      · rintro ((h | ⟨hne, hpair⟩) | ⟨w, hw, hwu, hwb, hdw, hpair⟩)
        · exact Or.inl h
        · exact Or.inr ⟨L, List.mem_cons_self _ _, hcond.1,
            (isGP_eq_iff L ty).mp hcond.2, hne, hpair⟩
        · exact Or.inr ⟨w, List.mem_cons_of_mem _ hw, hwu, hwb, hdw, hpair⟩
      · rintro (h | ⟨w, hw, hwu, hwb, hdw, hpair⟩)
        · exact Or.inl (Or.inl h)
        · rcases List.mem_cons.mp hw with h | h
          · subst h
            exact Or.inl (Or.inr ⟨hdw, hpair⟩)
          · exact Or.inr ⟨w, h, hwu, hwb, hdw, hpair⟩
    · rw [if_neg hcond, ih]
      constructor
      · rintro (h | ⟨w, hw, hwu, hwb, hdw, hpair⟩)
        · exact Or.inl h
        · exact Or.inr ⟨w, List.mem_cons_of_mem _ hw, hwu, hwb, hdw, hpair⟩
      · rintro (h | ⟨w, hw, hwu, hwb, hdw, hpair⟩)
        · exact Or.inl h
        · rcases List.mem_cons.mp hw with h | h
          · subst h
            exact absurd ⟨hwu, (isGP_eq_iff w ty).mpr hwb⟩ hcond
          · exact Or.inr ⟨w, h, hwu, hwb, hdw, hpair⟩

/-- C6: when `build` sees a coalescable move `def ← use` (both temporaries
of the builder's bank), it records the move in both endpoints' move lists
and in `worklistMoves`, and adds an interference edge `(def, L)` for
exactly the temporaries `L` live after the instruction that are of the same
bank and differ from the source `use` (and, addEdge being self-edge-free,
from `def` itself). -/
theorem build_coalescable_move (ty : Bank) (inst : AirInst) (mid : Nat)
    (live : List Tmp) (s : BuildState) (u d : Tmp)
    (hargs : inst.args = [AirArg.tmpArg u .Use ty, AirArg.tmpArg d .Def ty])
    (hco : mayBeCoalescable ty inst = true) :
    (mid ∈ (build ty inst mid live s).moveList u ∧
     mid ∈ (build ty inst mid live s).moveList d ∧
     mid ∈ (build ty inst mid live s).worklistMoves) ∧
    ∀ x y, containsEdge (build ty inst mid live s).E x y = true ↔
      (containsEdge s.E x y = true ∨
        ∃ L, L ∈ live ∧ L ≠ u ∧ L.bank = ty ∧ d ≠ L ∧
          ((x = d ∧ y = L) ∨ (x = L ∧ y = d))) := by
  have htmps : instTmps inst = [⟨u, .Use, ty⟩, ⟨d, .Def, ty⟩] := by
    simp [instTmps, hargs]
  have hdefdef : buildDefDef ty (instTmps inst) s.E = s.E := by
    rw [htmps]
    simp [buildDefDef, isDef, addEdgeSet]
  have hdu : moveDefUse (instTmps inst) = (some d, some u) := by
    rw [htmps]
    simp [moveDefUse, isDef]
  unfold build
  rw [if_pos hco, htmps]
  rw [htmps] at hdu hdefdef
  simp only [hdu, hdefdef, List.foldl_cons, List.foldl_nil]
  constructor
  · refine ⟨?_, ?_, mem_addToList_self _ _⟩
    · simp only [addMoveToList, eq_self_iff_true, if_true]
      by_cases hud : u = d
      · rw [if_pos hud]
        exact mem_addToList_self _ _
      · rw [if_neg hud]
        exact mem_addToList_self _ _
    · simp only [addMoveToList, eq_self_iff_true, if_true]
      exact mem_addToList_self _ _
  · intro x y
    exact build_live_fold_mem ty live s.E d u x y

/-- A concrete coalescable GP move for the C6 witness. -/
def moveU : Tmp := ⟨.GP, false, 2⟩

/-- See `moveU`. -/
def moveD : Tmp := ⟨.GP, false, 3⟩

/-- `moveD ← moveU`. -/
def moveInst6 : AirInst :=
  ⟨.Move, [.tmpArg moveU .Use .GP, .tmpArg moveD .Def .GP]⟩

/-- The empty build state. -/
def emptyBuildState : BuildState :=
  ⟨[], fun _ => [], []⟩

/-- Witness for C6 at a concrete move instruction. -/
theorem build_coalescable_move_witness :
    0 ∈ (build .GP moveInst6 0 [⟨.GP, false, 4⟩] emptyBuildState).moveList moveU ∧
    0 ∈ (build .GP moveInst6 0 [⟨.GP, false, 4⟩] emptyBuildState).moveList moveD ∧
    0 ∈ (build .GP moveInst6 0 [⟨.GP, false, 4⟩] emptyBuildState).worklistMoves :=
  (build_coalescable_move .GP moveInst6 0 [⟨.GP, false, 4⟩] emptyBuildState
    moveU moveD rfl (by decide)).1

/-! ## The allocator state and main-loop helpers -/

/-- A move instruction as the allocator's worklists see it: its identity
(standing for the `Inst*`) and its two tmp arguments. -/
structure MoveI where
  id : Nat
  arg0 : Tmp
  arg1 : Tmp
deriving DecidableEq, Repr

/-- The mutable state of `IteratedRegisterCoalescingAllocator` used by the
main loop.  Dense arrays indexed by `absoluteIndex` become functions keyed
by the temporary; hash sets and the insertion-ordered sets become lists. -/
structure AState where
  numberOfRegisters : Nat
  E : EdgeSet
  adjacencyList : Tmp → List Tmp
  degrees : Tmp → Nat
  moveList : Tmp → List MoveI
  coalescedTmps : Tmp → Option Tmp
  isOnSelectStack : Tmp → Bool
  selectStack : List Tmp
  worklistMoves : List Nat
  activeMoves : List Nat
  simplifyWorklist : List Tmp
  spillWorklist : List Tmp
  freezeWorklist : List Tmp

/-- Pointwise update of a map keyed by temporaries. -/
def updateFn {β : Type} (f : Tmp → β) (x : Tmp) (v : β) : Tmp → β :=
  fun y => if y = x then v else f y

/-- `IteratedRegisterCoalescingAllocator::getAlias`, with explicit fuel for
the `while` loop that chases the coalesced-tmp chain. -/
def getAlias (al : Tmp → Option Tmp) : Nat → Tmp → Tmp
  | 0, t => t
  | n + 1, t =>
    match al t with
    | none => t
    | some nextAlias => getAlias al n nextAlias

/-- `IteratedRegisterCoalescingAllocator::hasBeenSimplified`. -/
def hasBeenSimplified (s : AState) (t : Tmp) : Bool :=
  s.isOnSelectStack t || (s.coalescedTmps t).isSome

/-- `IteratedRegisterCoalescingAllocator::isMoveRelated`. -/
def isMoveRelated (s : AState) (t : Tmp) : Bool :=
  (s.moveList t).any
    (fun m => s.activeMoves.contains m.id || s.worklistMoves.contains m.id)

/-- The first line of the `freezeMoves` lambda:
`if (!m_activeMoves.remove(&inst)) m_worklistMoves.remove(&inst);`. -/
def removeMoveFrom (s : AState) (mid : Nat) : AState :=
  if mid ∈ s.activeMoves then { s with activeMoves := s.activeMoves.erase mid }
  else { s with worklistMoves := s.worklistMoves.erase mid }

/-- The other endpoint of a move, as `freezeMoves` computes it:
`inst.args[0].tmp() != tmp ? inst.args[0].tmp() : inst.args[1].tmp()`.
No alias resolution is performed. -/
def otherTmpOf (m : MoveI) (tmp : Tmp) : Tmp :=
  if m.arg0 ≠ tmp then m.arg0 else m.arg1

/-- The body of the `forEachNodeMoves` lambda in
`IteratedRegisterCoalescingAllocator::freezeMoves`, for one move. -/
def freezeMoveStep (s : AState) (tmp : Tmp) (m : MoveI) : AState :=
  let s1 := removeMoveFrom s m.id
  let otherTmp := otherTmpOf m tmp
  if s1.degrees otherTmp < s1.numberOfRegisters ∧ isMoveRelated s1 otherTmp = false then
    { s1 with
      freezeWorklist := s1.freezeWorklist.erase otherTmp,
      simplifyWorklist := s1.simplifyWorklist ++ [otherTmp] }
  else s1

/-- `IteratedRegisterCoalescingAllocator::freezeMoves`: iterate the node's
move list, processing the moves still in `activeMoves` or `worklistMoves`
(the `forEachNodeMoves` filter is evaluated against the current state). -/
def freezeMoves (s : AState) (tmp : Tmp) : AState :=
  (s.moveList tmp).foldl
    (fun s2 m =>
      if s2.activeMoves.contains m.id || s2.worklistMoves.contains m.id then
        freezeMoveStep s2 tmp m
      else s2)
    s

lemma removeMoveFrom_degrees (s : AState) (mid : Nat) :
    (removeMoveFrom s mid).degrees = s.degrees := by
  unfold removeMoveFrom
  split <;> rfl

lemma removeMoveFrom_numberOfRegisters (s : AState) (mid : Nat) :
    (removeMoveFrom s mid).numberOfRegisters = s.numberOfRegisters := by
  unfold removeMoveFrom
  split <;> rfl

lemma removeMoveFrom_freezeWorklist (s : AState) (mid : Nat) :
    (removeMoveFrom s mid).freezeWorklist = s.freezeWorklist := by
  unfold removeMoveFrom
  split <;> rfl

lemma removeMoveFrom_simplifyWorklist (s : AState) (mid : Nat) :
    (removeMoveFrom s mid).simplifyWorklist = s.simplifyWorklist := by
  unfold removeMoveFrom
  split <;> rfl

/-- C3 (amended): in `freezeMoves`, the processed move's other endpoint `t`
is taken *without* alias resolution (`otherTmpOf`), and `t` moves from the
freeze worklist to the simplify worklist exactly when its degree is below
`K` and it is no longer move-related once the move has been removed from
`activeMoves`/`worklistMoves` (precolored temporaries are excluded in
practice by their infinite degree, not by a separate check). -/
theorem freezeMoveStep_transfers_iff (s : AState) (v : Tmp) (m : MoveI) :
    ((freezeMoveStep s v m).simplifyWorklist = s.simplifyWorklist ++ [otherTmpOf m v] ∧
     (freezeMoveStep s v m).freezeWorklist = s.freezeWorklist.erase (otherTmpOf m v)) ↔
      (s.degrees (otherTmpOf m v) < s.numberOfRegisters ∧
       isMoveRelated (removeMoveFrom s m.id) (otherTmpOf m v) = false) := by
  unfold freezeMoveStep
  by_cases hcond :
      (removeMoveFrom s m.id).degrees (otherTmpOf m v) <
          (removeMoveFrom s m.id).numberOfRegisters ∧
        isMoveRelated (removeMoveFrom s m.id) (otherTmpOf m v) = false
  · rw [if_pos hcond]
    simp only [removeMoveFrom_degrees, removeMoveFrom_numberOfRegisters] at hcond
    constructor
    · intro _
      exact hcond
    · intro _
      constructor
      · show (removeMoveFrom s m.id).simplifyWorklist ++ [otherTmpOf m v] =
          s.simplifyWorklist ++ [otherTmpOf m v]
        rw [removeMoveFrom_simplifyWorklist]
      · show (removeMoveFrom s m.id).freezeWorklist.erase (otherTmpOf m v) =
          s.freezeWorklist.erase (otherTmpOf m v)
        rw [removeMoveFrom_freezeWorklist]
  · rw [if_neg hcond]
    simp only [removeMoveFrom_degrees, removeMoveFrom_numberOfRegisters] at hcond
    constructor
    · rintro ⟨habs, _⟩
      rw [removeMoveFrom_simplifyWorklist] at habs
      exact absurd (congrArg List.length habs) (by simp)
    · intro h
      exact absurd h hcond

/-- The frozen node in the C3 counterexample. -/
def frozenV : Tmp := ⟨.GP, false, 10⟩

/-- The raw other endpoint of the move; it has been coalesced into
`aliasRoot`, but its stale degree is still `K`. -/
def staleOther : Tmp := ⟨.GP, false, 11⟩

/-- The alias-resolved root of `staleOther`. -/
def aliasRoot : Tmp := ⟨.GP, false, 12⟩

/-- A worklist move between `frozenV` and the coalesced `staleOther`. -/
def staleMove : MoveI := ⟨1, frozenV, staleOther⟩

/-- A reachable shape after `combine(aliasRoot, staleOther)`: the move
stays in `worklistMoves`, is listed for both old endpoints and for the
root, and `staleOther` keeps its stale degree. -/
def staleState : AState :=
  ⟨1, [], fun _ => [],
   (fun x => if x = staleOther then 1 else 0),
   (fun x => if x = frozenV ∨ x = aliasRoot ∨ x = staleOther then [staleMove] else []),
   (fun x => if x = staleOther then some aliasRoot else none),
   fun _ => false, [], [1], [], [], [], [aliasRoot]⟩

/-- C3 counterexample: processing `staleMove` during `freezeMoves(frozenV)`
leaves the freeze and simplify worklists unchanged, although the
alias-resolved other endpoint `aliasRoot` is allocatable, of degree `< K`,
and move-unrelated once the move is dead — the claim says it must be
transferred from freeze to simplify.  The code tests the raw endpoint
`staleOther`, whose stale degree is `K`. -/
theorem freezeMoves_ignores_alias :
    getAlias staleState.coalescedTmps 1 (otherTmpOf staleMove frozenV) = aliasRoot ∧
    aliasRoot.isReg = false ∧
    staleState.degrees aliasRoot < staleState.numberOfRegisters ∧
    isMoveRelated (removeMoveFrom staleState staleMove.id) aliasRoot = false ∧
    staleMove.id ∈ staleState.worklistMoves ∧
    staleMove ∈ staleState.moveList frozenV ∧
    aliasRoot ∈ staleState.freezeWorklist ∧
    (freezeMoveStep staleState frozenV staleMove).simplifyWorklist = [] ∧
    aliasRoot ∈ (freezeMoveStep staleState frozenV staleMove).freezeWorklist := by
  decide

/-- A state in which the C3 transfer condition does hold. -/
def thawState : AState :=
  ⟨1, [], fun _ => [], fun _ => 0, fun _ => [], fun _ => none,
   fun _ => false, [], [2], [], [], [], [staleOther]⟩

/-- A worklist move between `frozenV` and `staleOther` in `thawState`. -/
def thawMove : MoveI := ⟨2, frozenV, staleOther⟩

/-- Witness for the amended C3 theorem at a concrete input. -/
theorem freezeMoveStep_transfers_witness :
    (freezeMoveStep thawState frozenV thawMove).simplifyWorklist =
      thawState.simplifyWorklist ++ [otherTmpOf thawMove frozenV] ∧
    (freezeMoveStep thawState frozenV thawMove).freezeWorklist =
      thawState.freezeWorklist.erase (otherTmpOf thawMove frozenV) :=
  (freezeMoveStep_transfers_iff thawState frozenV thawMove).mpr (by decide)

/-! ## Coalescing heuristics (`canBeSafelyCoalesced`) -/

/-- `IteratedRegisterCoalescingAllocator::precoloredCoalescingHeuristic`
(the George rule as implemented): fail iff some adjacent of `v` is a
non-precolored, non-simplified node of degree `≥ K` that does not already
interfere with `u`. -/
def precoloredCoalescingHeuristic (s : AState) (u v : Tmp) : Bool :=
  !((s.adjacencyList v).any
    (fun adjacentTmp =>
      !adjacentTmp.isReg && !hasBeenSimplified s adjacentTmp &&
        decide (s.numberOfRegisters ≤ s.degrees adjacentTmp) &&
        !containsEdge s.E u adjacentTmp))

/-- The `highOrderAdjacents` accumulation of `conservativeHeuristic`: a
hash set gathered from an adjacency list, keeping the non-simplified
entries of degree `≥ K` (the source's early `return false` once the set
reaches size `K` is equivalent to the final size test, since the set only
grows). -/
def highOrderFold (s : AState) (l : List Tmp) (acc : List Tmp) : List Tmp :=
  l.foldl
    (fun acc adjacentTmp =>
      if hasBeenSimplified s adjacentTmp = false ∧
          s.numberOfRegisters ≤ s.degrees adjacentTmp ∧ adjacentTmp ∉ acc then
        adjacentTmp :: acc
      else acc)
    acc

/-- `IteratedRegisterCoalescingAllocator::conservativeHeuristic` (Briggs'
rule with the small-adjacency fast path). -/
def conservativeHeuristic (s : AState) (u v : Tmp) : Bool :=
  let adjacentsOfU := s.adjacencyList u
  let adjacentsOfV := s.adjacencyList v
  if adjacentsOfU.length + adjacentsOfV.length < s.numberOfRegisters then true
  else
    let highOrderAdjacents := highOrderFold s adjacentsOfV (highOrderFold s adjacentsOfU [])
    decide (highOrderAdjacents.length < s.numberOfRegisters)

/-- `IteratedRegisterCoalescingAllocator::canBeSafelyCoalesced`. -/
def canBeSafelyCoalesced (s : AState) (u v : Tmp) : Bool :=
  if u.isReg then precoloredCoalescingHeuristic s u v
  else conservativeHeuristic s u v

/-- The branch taken by `IteratedRegisterCoalescingAllocator::coalesce`. -/
inductive CoalesceBranch
  | coalescedHit
  | constrained
  | combinedHit
  | deferredActive
deriving DecidableEq, Repr

/-- The decision structure of `coalesce()` on one move: resolve both
arguments through `getAlias`, swap a precolored side into `u`, and pick the
branch; returns the branch with the `(u, v)` it acted on.  `fuel` bounds the
alias chains. -/
def coalesceDecision (s : AState) (fuel : Nat) (m : MoveI) : CoalesceBranch × Tmp × Tmp :=
  let u0 := getAlias s.coalescedTmps fuel m.arg0
  let v0 := getAlias s.coalescedTmps fuel m.arg1
  let p := if v0.isReg then (v0, u0) else (u0, v0)
  if p.1 = p.2 then (.coalescedHit, p.1, p.2)
  else if p.2.isReg || containsEdge s.E p.1 p.2 then (.constrained, p.1, p.2)
  else if canBeSafelyCoalesced s p.1 p.2 then (.combinedHit, p.1, p.2)
  else (.deferredActive, p.1, p.2)

/-- The George condition exactly as the claim states it: every neighbor of
`v` interferes with `u`, or is precolored, or has degree `< K`, or is on
the select stack. -/
def claimGeorge (s : AState) (u v : Tmp) : Prop :=
  ∀ t ∈ s.adjacencyList v,
    containsEdge s.E u t = true ∨ t.isReg = true ∨
      s.degrees t < s.numberOfRegisters ∨ s.isOnSelectStack t = true

/-- The George condition as the code enforces it (amended claim): a
neighbor that has already been coalesced (alias set) is also acceptable. -/
def georgeRule (s : AState) (u v : Tmp) : Prop :=
  ∀ t ∈ s.adjacencyList v,
    containsEdge s.E u t = true ∨ t.isReg = true ∨
      s.degrees t < s.numberOfRegisters ∨ s.isOnSelectStack t = true ∨
      (s.coalescedTmps t).isSome = true

/-- The Briggs condition as the code enforces it (amended claim): the
number of distinct combined neighbors of `u` and `v` that are neither on
the select stack nor coalesced and have degree `≥ K` is `< K`. -/
def briggsRule (s : AState) (u v : Tmp) : Prop :=
  ∃ L : List Tmp, L.Nodup ∧
    (∀ t, t ∈ L ↔
      ((t ∈ s.adjacencyList u ∨ t ∈ s.adjacencyList v) ∧
        hasBeenSimplified s t = false ∧
        s.numberOfRegisters ≤ s.degrees t)) ∧
    L.length < s.numberOfRegisters

lemma highOrderFold_cons (s : AState) (t : Tmp) (rest : List Tmp) (acc : List Tmp) :
    highOrderFold s (t :: rest) acc =
      highOrderFold s rest
        (if hasBeenSimplified s t = false ∧
            s.numberOfRegisters ≤ s.degrees t ∧ t ∉ acc then t :: acc else acc) := rfl

lemma highOrderFold_mem (s : AState) (l : List Tmp) (acc : List Tmp) (x : Tmp) :
    x ∈ highOrderFold s l acc ↔
      x ∈ acc ∨ (x ∈ l ∧ hasBeenSimplified s x = false ∧
        s.numberOfRegisters ≤ s.degrees x) := by
  induction l generalizing acc with
  | nil => simp [highOrderFold]
  | cons t rest ih =>
    rw [highOrderFold_cons]
    by_cases hc : hasBeenSimplified s t = false ∧
        s.numberOfRegisters ≤ s.degrees t ∧ t ∉ acc
    · rw [if_pos hc, ih]
      constructor
      · rintro (h | h)
        · rcases List.mem_cons.mp h with h | h
          · subst h
            exact Or.inr ⟨List.mem_cons_self _ _, hc.1, hc.2.1⟩
          · exact Or.inl h
        · exact Or.inr ⟨List.mem_cons_of_mem _ h.1, h.2⟩
      · rintro (h | ⟨hmem, hsimp, hdeg⟩)
        · exact Or.inl (List.mem_cons_of_mem _ h)
        · rcases List.mem_cons.mp hmem with h | h
          · subst h
            exact Or.inl (List.mem_cons_self _ _)
          · exact Or.inr ⟨h, hsimp, hdeg⟩
    · rw [if_neg hc, ih]
      constructor
      · rintro (h | h)
        · exact Or.inl h
        · exact Or.inr ⟨List.mem_cons_of_mem _ h.1, h.2⟩
      · rintro (h | ⟨hmem, hsimp, hdeg⟩)
        · exact Or.inl h
        · rcases List.mem_cons.mp hmem with h | h
          · subst h
            by_cases hacc : x ∈ acc
            · exact Or.inl hacc
            · exact absurd ⟨hsimp, hdeg, hacc⟩ hc
          · exact Or.inr ⟨h, hsimp, hdeg⟩

lemma highOrderFold_nodup (s : AState) (l : List Tmp) (acc : List Tmp)
    (hacc : acc.Nodup) : (highOrderFold s l acc).Nodup := by
  induction l generalizing acc with
  | nil => exact hacc
  | cons t rest ih =>
    rw [highOrderFold_cons]
    by_cases hc : hasBeenSimplified s t = false ∧
        s.numberOfRegisters ≤ s.degrees t ∧ t ∉ acc
    · rw [if_pos hc]
      exact ih _ (List.nodup_cons.mpr ⟨hc.2.2, hacc⟩)
    · rw [if_neg hc]
      exact ih _ hacc

lemma highOrderFold_length (s : AState) (l : List Tmp) (acc : List Tmp) :
    (highOrderFold s l acc).length ≤ acc.length + l.length := by
  induction l generalizing acc with
  | nil => simp [highOrderFold]
  | cons t rest ih =>
    rw [highOrderFold_cons]
    by_cases hc : hasBeenSimplified s t = false ∧
        s.numberOfRegisters ≤ s.degrees t ∧ t ∉ acc
    · rw [if_pos hc]
      have := ih (t :: acc)
      simp only [List.length_cons] at this ⊢
      omega
    · rw [if_neg hc]
      have := ih acc
      simp only [List.length_cons]
      omega

lemma precoloredHeuristic_george (s : AState) (u v : Tmp)
    (h : precoloredCoalescingHeuristic s u v = true) : georgeRule s u v := by
  unfold precoloredCoalescingHeuristic at h
  rw [Bool.not_eq_true', List.any_eq_false] at h
  intro t ht
  have hb := h t ht
  by_cases h1 : containsEdge s.E u t = true
  · exact Or.inl h1
  · by_cases h2 : t.isReg = true
    · exact Or.inr (Or.inl h2)
    · by_cases h3 : s.degrees t < s.numberOfRegisters
      · exact Or.inr (Or.inr (Or.inl h3))
      · have hb' : (!t.isReg && !hasBeenSimplified s t &&
            decide (s.numberOfRegisters ≤ s.degrees t) &&
            !containsEdge s.E u t) = false := Bool.eq_false_iff.mpr hb
        have h4 : hasBeenSimplified s t = true := by
          rcases Bool.eq_false_or_eq_true (hasBeenSimplified s t) with h4 | h4
          · exact h4
          · exfalso
            rw [Bool.not_eq_true] at h1 h2
            rw [h1, h2, h4] at hb'
            simp at hb'
            omega
        unfold hasBeenSimplified at h4
        rcases Bool.or_eq_true_iff.mp h4 with h5 | h5
        · exact Or.inr (Or.inr (Or.inr (Or.inl h5)))
        · exact Or.inr (Or.inr (Or.inr (Or.inr h5)))

lemma conservativeHeuristic_briggs (s : AState) (u v : Tmp)
    (h : conservativeHeuristic s u v = true) : briggsRule s u v := by
  refine ⟨highOrderFold s (s.adjacencyList v) (highOrderFold s (s.adjacencyList u) []),
    highOrderFold_nodup s _ _ (highOrderFold_nodup s _ _ List.nodup_nil), ?_, ?_⟩
  · intro t
    rw [highOrderFold_mem, highOrderFold_mem]
    constructor
    · rintro ((h1 | h1) | h1)
      · exact absurd h1 (List.not_mem_nil t)
      · exact ⟨Or.inl h1.1, h1.2⟩
      · exact ⟨Or.inr h1.1, h1.2⟩
    · rintro ⟨h1 | h1, h2⟩
      · exact Or.inl (Or.inr ⟨h1, h2⟩)
      · exact Or.inr ⟨h1, h2⟩
  · unfold conservativeHeuristic at h
    by_cases hfast : (s.adjacencyList u).length + (s.adjacencyList v).length <
        s.numberOfRegisters
    · have h1 := highOrderFold_length s (s.adjacencyList v)
        (highOrderFold s (s.adjacencyList u) [])
      have h2 := highOrderFold_length s (s.adjacencyList u) ([] : List Tmp)
      simp only [List.length_nil] at h2
      omega
    · rw [if_neg hfast] at h
      exact of_decide_eq_true h

lemma coalesceDecision_combined (s : AState) (fuel : Nat) (m : MoveI) (u v : Tmp)
    (h : coalesceDecision s fuel m = (.combinedHit, u, v)) :
    canBeSafelyCoalesced s u v = true := by
  unfold coalesceDecision at h
  by_cases h1 : ((fun (p : Tmp × Tmp) => p) (if (getAlias s.coalescedTmps fuel m.arg1).isReg then
      (getAlias s.coalescedTmps fuel m.arg1, getAlias s.coalescedTmps fuel m.arg0)
    else (getAlias s.coalescedTmps fuel m.arg0, getAlias s.coalescedTmps fuel m.arg1))).1 =
      ((fun (p : Tmp × Tmp) => p) (if (getAlias s.coalescedTmps fuel m.arg1).isReg then
      (getAlias s.coalescedTmps fuel m.arg1, getAlias s.coalescedTmps fuel m.arg0)
    else (getAlias s.coalescedTmps fuel m.arg0, getAlias s.coalescedTmps fuel m.arg1))).2
  · rw [if_pos h1] at h
    exact absurd (congrArg Prod.fst h) (by simp)
  · rw [if_neg h1] at h
    by_cases h2 : ((if (getAlias s.coalescedTmps fuel m.arg1).isReg then
        (getAlias s.coalescedTmps fuel m.arg1, getAlias s.coalescedTmps fuel m.arg0)
      else (getAlias s.coalescedTmps fuel m.arg0,
        getAlias s.coalescedTmps fuel m.arg1)).2.isReg ||
        containsEdge s.E
          (if (getAlias s.coalescedTmps fuel m.arg1).isReg then
            (getAlias s.coalescedTmps fuel m.arg1, getAlias s.coalescedTmps fuel m.arg0)
          else (getAlias s.coalescedTmps fuel m.arg0,
            getAlias s.coalescedTmps fuel m.arg1)).1
          (if (getAlias s.coalescedTmps fuel m.arg1).isReg then
            (getAlias s.coalescedTmps fuel m.arg1, getAlias s.coalescedTmps fuel m.arg0)
          else (getAlias s.coalescedTmps fuel m.arg0,
            getAlias s.coalescedTmps fuel m.arg1)).2) = true
    · rw [if_pos h2] at h
      exact absurd (congrArg Prod.fst h) (by simp)
    · rw [if_neg h2] at h
      by_cases h3 : canBeSafelyCoalesced s
          (if (getAlias s.coalescedTmps fuel m.arg1).isReg then
            (getAlias s.coalescedTmps fuel m.arg1, getAlias s.coalescedTmps fuel m.arg0)
          else (getAlias s.coalescedTmps fuel m.arg0,
            getAlias s.coalescedTmps fuel m.arg1)).1
          (if (getAlias s.coalescedTmps fuel m.arg1).isReg then
            (getAlias s.coalescedTmps fuel m.arg1, getAlias s.coalescedTmps fuel m.arg0)
          else (getAlias s.coalescedTmps fuel m.arg0,
            getAlias s.coalescedTmps fuel m.arg1)).2 = true
      · rw [if_pos h3] at h
        have hu : (if (getAlias s.coalescedTmps fuel m.arg1).isReg then
            (getAlias s.coalescedTmps fuel m.arg1, getAlias s.coalescedTmps fuel m.arg0)
          else (getAlias s.coalescedTmps fuel m.arg0,
            getAlias s.coalescedTmps fuel m.arg1)).1 = u :=
          congrArg (fun p => p.2.1) h
        have hv : (if (getAlias s.coalescedTmps fuel m.arg1).isReg then
            (getAlias s.coalescedTmps fuel m.arg1, getAlias s.coalescedTmps fuel m.arg0)
          else (getAlias s.coalescedTmps fuel m.arg0,
            getAlias s.coalescedTmps fuel m.arg1)).2 = v :=
          congrArg (fun p => p.2.2) h
        rw [← hu, ← hv]
        exact h3
      · rw [if_neg h3] at h
        exact absurd (congrArg Prod.fst h) (by simp)

/-- C5 (amended): whenever `coalesce()` takes the `combine(u,v)` branch,
the conservative test held for the graph state at that moment, where a
neighbor that is on the select stack *or already coalesced* is discounted:
for precolored `u` the (amended) George rule, otherwise the (amended)
Briggs rule on the distinct not-simplified high-degree combined
neighbors. -/
theorem combine_fires_conservatively (s : AState) (fuel : Nat) (m : MoveI)
    (u v : Tmp) (h : coalesceDecision s fuel m = (.combinedHit, u, v)) :
    (u.isReg = true → georgeRule s u v) ∧ (u.isReg = false → briggsRule s u v) := by
  have hsafe := coalesceDecision_combined s fuel m u v h
  unfold canBeSafelyCoalesced at hsafe
  constructor
  · intro hreg
    apply precoloredHeuristic_george
    rwa [if_pos hreg] at hsafe
  · intro hreg
    apply conservativeHeuristic_briggs
    rwa [if_neg (by rw [hreg]; exact Bool.false_ne_true)] at hsafe

/-- The precolored side of the move in the C5 counterexample. -/
def precoloredU : Tmp := ⟨.GP, true, 0⟩

/-- The allocatable side of the move in the C5 counterexample. -/
def coalVictimV : Tmp := ⟨.GP, false, 5⟩

/-- The sole neighbor of `coalVictimV`: coalesced away (alias set), not on
the select stack, stale degree `K`, no interference with `precoloredU`. -/
def badNeighbor : Tmp := ⟨.GP, false, 6⟩

/-- The root `badNeighbor` was coalesced into. -/
def badRoot : Tmp := ⟨.GP, false, 7⟩

/-- The move `precoloredU ← coalVictimV`. -/
def georgeMove : MoveI := ⟨3, precoloredU, coalVictimV⟩

/-- A state (with `K = 1`) exercising the coalesced-neighbor case of the
George test. -/
def georgeState : AState :=
  ⟨1, [],
   (fun x => if x = coalVictimV then [badNeighbor] else []),
   (fun x => if x = badNeighbor then 1 else 0),
   fun _ => [],
   (fun x => if x = badNeighbor then some badRoot else none),
   fun _ => false, [], [], [], [], [], []⟩

/-- C5 counterexample: `combine(precoloredU, coalVictimV)` fires although
the George condition as the claim states it fails — `badNeighbor` neither
interferes with `u`, nor is precolored, nor has degree `< K`, nor is on the
select stack.  The code additionally discounts neighbors that have been
coalesced, which the claim does not allow. -/
theorem combine_fires_without_claimed_george :
    coalesceDecision georgeState 0 georgeMove =
      (.combinedHit, precoloredU, coalVictimV) ∧
    precoloredU.isReg = true ∧
    ¬claimGeorge georgeState precoloredU coalVictimV := by
  constructor
  · decide
  · constructor
    · decide
    · intro hclaim
      have := hclaim badNeighbor (by decide)
      revert this
      decide

/-- Witness for the amended C5 theorem at the same concrete decision. -/
theorem combine_fires_conservatively_witness :
    (precoloredU.isReg = true → georgeRule georgeState precoloredU coalVictimV) ∧
    (precoloredU.isReg = false → briggsRule georgeState precoloredU coalVictimV) :=
  combine_fires_conservatively georgeState 0 georgeMove precoloredU coalVictimV
    (by decide)

/-! ## Spill candidate selection (`selectSpill`) -/

/-- The scan loop of `IteratedRegisterCoalescingAllocator::selectSpill`:
starting from the first worklist entry, a later entry replaces the current
victim only when its degree is strictly larger (`tmpDegree > maxDegree`;
the running `maxDegree` always equals the victim's degree). -/
def selectSpillAux (deg : Tmp → Nat) : Tmp → List Tmp → Tmp
  | cur, [] => cur
  | cur, t :: rest =>
    if deg cur < deg t then selectSpillAux deg t rest
    else selectSpillAux deg cur rest

/-- `IteratedRegisterCoalescingAllocator::selectSpill`: pick the victim,
move it from the spill worklist to the simplify worklist, and freeze its
moves.  (The source asserts the worklist non-empty by dereferencing
`begin()`; on an empty worklist we return the state unchanged.) -/
def selectSpill (s : AState) : AState :=
  match s.spillWorklist with
  | [] => s
  | t :: rest =>
    freezeMoves
      { s with
        spillWorklist := s.spillWorklist.erase (selectSpillAux s.degrees t rest),
        simplifyWorklist := s.simplifyWorklist ++ [selectSpillAux s.degrees t rest] }
      (selectSpillAux s.degrees t rest)

lemma selectSpillAux_le (deg : Tmp → Nat) (rest : List Tmp) :
    ∀ cur, deg cur ≤ deg (selectSpillAux deg cur rest) ∧
      ∀ x ∈ rest, deg x ≤ deg (selectSpillAux deg cur rest) := by
  induction rest with
  | nil =>
    intro cur
    exact ⟨Nat.le_refl _, by simp⟩
  | cons t rest ih =>
    intro cur
    unfold selectSpillAux
    by_cases hlt : deg cur < deg t
    · rw [if_pos hlt]
      refine ⟨Nat.le_trans (Nat.le_of_lt hlt) (ih t).1, ?_⟩
      intro x hx
      rcases List.mem_cons.mp hx with hx | hx
      · rw [hx]; exact (ih t).1
      · exact (ih t).2 x hx
    · rw [if_neg hlt]
      refine ⟨(ih cur).1, ?_⟩
      intro x hx
      rcases List.mem_cons.mp hx with hx | hx
      · subst hx
        exact Nat.le_trans (Nat.le_of_not_lt hlt) (ih cur).1
      · exact (ih cur).2 x hx

lemma selectSpillAux_first (deg : Tmp → Nat) (rest : List Tmp) :
    ∀ cur, (cur :: rest).find?
        (fun x => deg x == deg (selectSpillAux deg cur rest)) =
      some (selectSpillAux deg cur rest) := by
  induction rest with
  | nil =>
    intro cur
    unfold selectSpillAux
    exact List.find?_cons_of_pos _ (by simp)
  | cons t rest ih =>
    intro cur
    unfold selectSpillAux
    by_cases hlt : deg cur < deg t
    · rw [if_pos hlt]
      have hle : deg t ≤ deg (selectSpillAux deg t rest) := (selectSpillAux_le deg rest t).1
      rw [List.find?_cons_of_neg _ (by simp; omega)]
      exact ih t
    · rw [if_neg hlt]
      by_cases hcur : deg cur = deg (selectSpillAux deg cur rest)
      · have hfound : (cur :: rest).find?
            (fun x => deg x == deg (selectSpillAux deg cur rest)) = some cur :=
          List.find?_cons_of_pos _ (by simp [hcur])
        have := ih cur
        rw [hfound] at this
        rw [List.find?_cons_of_pos _ (by simp [hcur])]
        exact this
      · have hle1 : deg cur ≤ deg (selectSpillAux deg cur rest) :=
          (selectSpillAux_le deg rest cur).1
        have hle2 : deg t ≤ deg cur := Nat.le_of_not_lt hlt
        rw [List.find?_cons_of_neg _ (by simp; omega),
          List.find?_cons_of_neg _ (by simp; omega)]
        have := ih cur
        rw [List.find?_cons_of_neg _ (by simp; omega)] at this
        exact this

/-- C7: `selectSpill` picks the spill-worklist entry of maximum current
degree, ties broken in favor of the earliest entry in iteration order
(`find?` returns the first match); the victim is removed from the spill
worklist, appended to the simplify worklist, and `freezeMoves` is invoked
on it.  As a Lean function of the worklist order, the choice is
deterministic by construction. -/
theorem selectSpill_picks_first_max (s : AState) (t : Tmp) (rest : List Tmp)
    (h : s.spillWorklist = t :: rest) :
    (∀ x ∈ s.spillWorklist,
      s.degrees x ≤ s.degrees (selectSpillAux s.degrees t rest)) ∧
    s.spillWorklist.find?
        (fun x => s.degrees x == s.degrees (selectSpillAux s.degrees t rest)) =
      some (selectSpillAux s.degrees t rest) ∧
    selectSpill s =
      freezeMoves
        { s with
          spillWorklist := s.spillWorklist.erase (selectSpillAux s.degrees t rest),
          simplifyWorklist :=
            s.simplifyWorklist ++ [selectSpillAux s.degrees t rest] }
        (selectSpillAux s.degrees t rest) := by
  refine ⟨?_, ?_, ?_⟩
  · intro x hx
    rw [h] at hx
    rcases List.mem_cons.mp hx with hx | hx
    · subst hx
      exact (selectSpillAux_le s.degrees rest x).1
    · exact (selectSpillAux_le s.degrees rest t).2 x hx
  · rw [h]
    exact selectSpillAux_first s.degrees rest t
  · unfold selectSpill
    rw [h]

/-- A spill worklist with degrees 1, 3, 3, 2: the victim must be the first
entry of degree 3. -/
def spillState7 : AState :=
  ⟨2, [], fun _ => [],
   (fun x => if x.idx = 20 then 1 else if x.idx = 21 then 3 else
     if x.idx = 22 then 3 else 2),
   fun _ => [], fun _ => none, fun _ => false, [], [], [], [],
   [⟨.GP, false, 20⟩, ⟨.GP, false, 21⟩, ⟨.GP, false, 22⟩, ⟨.GP, false, 23⟩], []⟩

/-- Witness for C7 at a concrete worklist. -/
theorem selectSpill_picks_first_max_witness :
    spillState7.spillWorklist.find?
        (fun x => spillState7.degrees x ==
          spillState7.degrees (selectSpillAux spillState7.degrees ⟨.GP, false, 20⟩
            [⟨.GP, false, 21⟩, ⟨.GP, false, 22⟩, ⟨.GP, false, 23⟩])) =
      some (selectSpillAux spillState7.degrees ⟨.GP, false, 20⟩
        [⟨.GP, false, 21⟩, ⟨.GP, false, 22⟩, ⟨.GP, false, 23⟩]) :=
  (selectSpill_picks_first_max spillState7 ⟨.GP, false, 20⟩
    [⟨.GP, false, 21⟩, ⟨.GP, false, 22⟩, ⟨.GP, false, 23⟩] rfl).2.1

/-! ## Coalescing (`combine`) and the alias map -/

/-- `HashSet<Tmp>::add`. -/
def addTmpSet (l : List Tmp) (t : Tmp) : List Tmp :=
  if t ∈ l then l else l ++ [t]

/-- The effect of `m_coalescedTmps[absoluteIndex(v)] = u`. -/
def setAlias (al : Tmp → Option Tmp) (v u : Tmp) : Tmp → Option Tmp :=
  fun x => if x = v then some u else al x

/-- One half of `IteratedRegisterCoalescingAllocator::addEdge`: grow one
endpoint's adjacency list and degree, unless it is precolored. -/
def addEdgeAdj (s : AState) (a b : Tmp) : AState :=
  if a.isReg then s
  else
    { s with
      adjacencyList := updateFn s.adjacencyList a (s.adjacencyList a ++ [b]),
      degrees := updateFn s.degrees a (s.degrees a + 1) }

/-- `IteratedRegisterCoalescingAllocator::addEdge` on the allocator state:
skip self pairs, skip already-present edges, otherwise record the edge and
update both adjacency lists and degrees. -/
def addEdge (s : AState) (a b : Tmp) : AState :=
  if a = b then s
  else if containsEdge s.E a b then s
  else addEdgeAdj (addEdgeAdj { s with E := (a, b) :: s.E } a b) b a

/-- `IteratedRegisterCoalescingAllocator::enableMovesOnValue`:
`if (m_activeMoves.remove(inst)) m_worklistMoves.add(inst);` for each move
of the node. -/
def enableMovesOnValue (s : AState) (tmp : Tmp) : AState :=
  (s.moveList tmp).foldl
    (fun s2 m =>
      if s2.activeMoves.contains m.id then
        { s2 with
          activeMoves := s2.activeMoves.erase m.id,
          worklistMoves := addToList s2.worklistMoves m.id }
      else s2)
    s

/-- `IteratedRegisterCoalescingAllocator::enableMovesOnValueAndAdjacents`;
`forEachAdjacent` skips simplified (on-stack or coalesced) neighbors. -/
def enableMovesOnValueAndAdjacents (s : AState) (tmp : Tmp) : AState :=
  let s1 := enableMovesOnValue s tmp
  (s1.adjacencyList tmp).foldl
    (fun s2 adjacentTmp =>
      if hasBeenSimplified s2 adjacentTmp then s2
      else enableMovesOnValue s2 adjacentTmp)
    s1

/-- `IteratedRegisterCoalescingAllocator::decrementDegree`: the degree is
always decremented; when the old degree was exactly `K` the node becomes
allocable, its moves (and its neighbors' moves) are re-enabled, and it
moves from the spill worklist to freeze or simplify. -/
def decrementDegree (s : AState) (tmp : Tmp) : AState :=
  let s1 := { s with degrees := updateFn s.degrees tmp (s.degrees tmp - 1) }
  if s.degrees tmp = s.numberOfRegisters then
    let s2 := enableMovesOnValueAndAdjacents s1 tmp
    let s3 := { s2 with spillWorklist := s2.spillWorklist.erase tmp }
    if isMoveRelated s3 tmp then
      { s3 with freezeWorklist := addTmpSet s3.freezeWorklist tmp }
    else { s3 with simplifyWorklist := s3.simplifyWorklist ++ [tmp] }
  else s1

/-- The first statement of `combine`: drop `v` from the freeze worklist,
falling back to the spill worklist
(`if (!m_freezeWorklist.remove(v)) m_spillWorklist.remove(v);`). -/
def combineDropV (s : AState) (v : Tmp) : AState :=
  if v ∈ s.freezeWorklist then
    { s with freezeWorklist := s.freezeWorklist.erase v }
  else { s with spillWorklist := s.spillWorklist.erase v }

/-- The middle of `combine`: set `alias[v] = u` (the source asserts the
alias of `v` unset) and merge `v`'s move list into `u`'s. -/
def combineMerge (s : AState) (u v : Tmp) : AState :=
  let s2 := { s with coalescedTmps := setAlias s.coalescedTmps v u }
  { s2 with
    moveList := updateFn s2.moveList u
      ((s2.moveList v).foldl
        (fun l m => if m ∈ l then l else l ++ [m]) (s2.moveList u)) }

/-- The `forEachAdjacent(v, ...)` loop of `combine`: reroute each
non-simplified neighbor of `v` to `u` and decrement its degree. -/
def combineAdjLoop (s : AState) (u v : Tmp) : AState :=
  (s.adjacencyList v).foldl
    (fun s5 adjacentTmp =>
      if hasBeenSimplified s5 adjacentTmp then s5
      else decrementDegree (addEdge s5 adjacentTmp u) adjacentTmp)
    s

/-- The last statement of `combine`: demote `u` from freeze to spill when
its degree reached `K`
(`if (m_degrees[u] >= K && m_freezeWorklist.remove(u)) m_spillWorklist.add(u);`). -/
def combineDemoteU (s : AState) (u : Tmp) : AState :=
  if s.numberOfRegisters ≤ s.degrees u ∧ u ∈ s.freezeWorklist then
    { s with
      freezeWorklist := s.freezeWorklist.erase u,
      spillWorklist := addTmpSet s.spillWorklist u }
  else s

/-- `IteratedRegisterCoalescingAllocator::combine(u, v)`, as the
composition of its four statements in source order. -/
def combine (s : AState) (u v : Tmp) : AState :=
  combineDemoteU (combineAdjLoop (combineMerge (combineDropV s v) u v) u v) u

lemma foldl_preserves_coalescedTmps {α : Type} (f : AState → α → AState)
    (hf : ∀ s a, (f s a).coalescedTmps = s.coalescedTmps) :
    ∀ (l : List α) (s : AState), (l.foldl f s).coalescedTmps = s.coalescedTmps := by
  intro l
  induction l with
  | nil => intro s; rfl
  | cons a rest ih =>
    intro s
    rw [List.foldl_cons, ih, hf]

lemma enableMovesOnValue_coalescedTmps (s : AState) (tmp : Tmp) :
    (enableMovesOnValue s tmp).coalescedTmps = s.coalescedTmps := by
  unfold enableMovesOnValue
  refine foldl_preserves_coalescedTmps _ (fun s2 m => ?_) _ s
  by_cases h : s2.activeMoves.contains m.id = true
  · rw [if_pos h]
  · rw [if_neg h]

lemma enableMovesOnValueAndAdjacents_coalescedTmps (s : AState) (tmp : Tmp) :
    (enableMovesOnValueAndAdjacents s tmp).coalescedTmps = s.coalescedTmps := by
  unfold enableMovesOnValueAndAdjacents
  rw [foldl_preserves_coalescedTmps _ (fun s2 a => ?_) _ _,
    enableMovesOnValue_coalescedTmps]
  by_cases h : hasBeenSimplified s2 a = true
  · rw [if_pos h]
  · rw [if_neg h, enableMovesOnValue_coalescedTmps]

lemma addEdgeAdj_coalescedTmps (s : AState) (a b : Tmp) :
    (addEdgeAdj s a b).coalescedTmps = s.coalescedTmps := by
  unfold addEdgeAdj
  by_cases h : a.isReg = true
  · rw [if_pos h]
  · rw [if_neg h]

lemma addEdge_coalescedTmps (s : AState) (a b : Tmp) :
    (addEdge s a b).coalescedTmps = s.coalescedTmps := by
  unfold addEdge
  by_cases h1 : a = b
  · rw [if_pos h1]
  · rw [if_neg h1]
    by_cases h2 : containsEdge s.E a b = true
    · rw [if_pos h2]
    · rw [if_neg h2, addEdgeAdj_coalescedTmps, addEdgeAdj_coalescedTmps]

lemma decrementDegree_coalescedTmps (s : AState) (tmp : Tmp) :
    (decrementDegree s tmp).coalescedTmps = s.coalescedTmps := by
  unfold decrementDegree
  by_cases h1 : s.degrees tmp = s.numberOfRegisters
  · rw [if_pos h1]
    by_cases h2 : isMoveRelated
        { enableMovesOnValueAndAdjacents
            { s with degrees := updateFn s.degrees tmp (s.degrees tmp - 1) } tmp with
          spillWorklist :=
            (enableMovesOnValueAndAdjacents
              { s with degrees := updateFn s.degrees tmp (s.degrees tmp - 1) }
              tmp).spillWorklist.erase tmp } tmp = true
    · rw [if_pos h2]
      show (enableMovesOnValueAndAdjacents
          { s with degrees := updateFn s.degrees tmp (s.degrees tmp - 1) }
          tmp).coalescedTmps = s.coalescedTmps
      rw [enableMovesOnValueAndAdjacents_coalescedTmps]
    · rw [if_neg h2]
      show (enableMovesOnValueAndAdjacents
          { s with degrees := updateFn s.degrees tmp (s.degrees tmp - 1) }
          tmp).coalescedTmps = s.coalescedTmps
      rw [enableMovesOnValueAndAdjacents_coalescedTmps]
  · rw [if_neg h1]


lemma combineDropV_coalescedTmps (s : AState) (v : Tmp) :
    (combineDropV s v).coalescedTmps = s.coalescedTmps := by
  unfold combineDropV
  split <;> rfl

lemma combineMerge_coalescedTmps (s : AState) (u v : Tmp) :
    (combineMerge s u v).coalescedTmps = setAlias s.coalescedTmps v u := rfl

lemma combineAdjLoop_coalescedTmps (s : AState) (u v : Tmp) :
    (combineAdjLoop s u v).coalescedTmps = s.coalescedTmps := by
  unfold combineAdjLoop
  refine foldl_preserves_coalescedTmps _ (fun s5 adjacentTmp => ?_) _ s
  by_cases h : hasBeenSimplified s5 adjacentTmp = true
  · rw [if_pos h]
  · rw [if_neg h, decrementDegree_coalescedTmps, addEdge_coalescedTmps]

lemma combineDemoteU_coalescedTmps (s : AState) (u : Tmp) :
    (combineDemoteU s u).coalescedTmps = s.coalescedTmps := by
  unfold combineDemoteU
  split <;> rfl

lemma combine_coalescedTmps (s : AState) (u v : Tmp) :
    (combine s u v).coalescedTmps = setAlias s.coalescedTmps v u := by
  unfold combine
  rw [combineDemoteU_coalescedTmps, combineAdjLoop_coalescedTmps,
    combineMerge_coalescedTmps, combineDropV_coalescedTmps]

/-- The alias maps reachable by the discipline of `combine`: the source
asserts `!m_coalescedTmps[v]` before setting `alias[v] = u`, and
`coalesce()` only passes alias-resolved, distinct `u` and `v` (so `u` is a
root at that moment). -/
inductive AliasReachable : (Tmp → Option Tmp) → Prop
  | init : AliasReachable (fun _ => none)
  | combineStep (al : Tmp → Option Tmp) (u v : Tmp) (hv : al v = none)
      (hu : al u = none) (hne : u ≠ v) (h : AliasReachable al) :
      AliasReachable (setAlias al v u)

lemma getAlias_root_stable (al : Tmp → Option Tmp) (t : Tmp) (h : al t = none) :
    ∀ n, getAlias al n t = t := by
  intro n
  cases n with
  | zero => rfl
  | succ n =>
    unfold getAlias
    rw [h]

lemma getAlias_add (al : Tmp → Option Tmp) (a b : Nat) :
    ∀ t, getAlias al (a + b) t = getAlias al b (getAlias al a t) := by
  induction a with
  | zero =>
    intro t
    rw [Nat.zero_add]
    rfl
  | succ a ih =>
    intro t
    have hsa : a + 1 + b = (a + b) + 1 := by omega
    rw [hsa]
    cases hal : al t with
    | none =>
      rw [getAlias_root_stable al t hal, getAlias_root_stable al t hal,
        getAlias_root_stable al t hal]
    | some w =>
      have h1 : getAlias al ((a + b) + 1) t = getAlias al (a + b) w := by
        show (match al t with
          | none => t
          | some nextAlias => getAlias al (a + b) nextAlias) = _
        rw [hal]
      have h2 : getAlias al (a + 1) t = getAlias al a w := by
        show (match al t with
          | none => t
          | some nextAlias => getAlias al a nextAlias) = _
        rw [hal]
      rw [h1, h2, ih w]

lemma aliasStep_resolves (al : Tmp → Option Tmp) (u v : Tmp)
    (hv : al v = none) (hu : al u = none) (hne : u ≠ v) :
    ∀ n t, al (getAlias al n t) = none →
      ∃ m, setAlias al v u (getAlias (setAlias al v u) m t) = none := by
  have hroot : ∀ t, al t = none →
      ∃ m, setAlias al v u (getAlias (setAlias al v u) m t) = none := by
    intro t ht
    by_cases htv : t = v
    · refine ⟨1, ?_⟩
      have h1 : getAlias (setAlias al v u) 1 t = u := by
        show (match setAlias al v u t with
          | none => t
          | some nextAlias => getAlias (setAlias al v u) 0 nextAlias) = u
        rw [show setAlias al v u t = some u from if_pos htv]
        rfl
      rw [h1]
      show (if u = v then some u else al u) = none
      rw [if_neg hne, hu]
    · refine ⟨0, ?_⟩
      show (if t = v then some u else al t) = none
      rw [if_neg htv, ht]
  intro n
  induction n with
  | zero =>
    intro t ht
    exact hroot t ht
  | succ n ih =>
    intro t ht
    cases hal : al t with
    | none => exact hroot t hal
    | some w =>
      have htv : t ≠ v := by
        intro heq
        rw [heq, hv] at hal
        exact Option.noConfusion hal
      have hw : al (getAlias al n w) = none := by
        have h1 : getAlias al (n + 1) t = getAlias al n w := by
          show (match al t with
            | none => t
            | some nextAlias => getAlias al n nextAlias) = _
          rw [hal]
        rw [h1] at ht
        exact ht
      obtain ⟨m, hm⟩ := ih w hw
      refine ⟨m + 1, ?_⟩
      have h2 : getAlias (setAlias al v u) (m + 1) t =
          getAlias (setAlias al v u) m w := by
        show (match setAlias al v u t with
          | none => t
          | some nextAlias => getAlias (setAlias al v u) m nextAlias) = _
        rw [show setAlias al v u t = some w from by
          show (if t = v then some u else al t) = some w
          rw [if_neg htv, hal]]
      rw [h2]
      exact hm

lemma aliasReachable_resolves (al : Tmp → Option Tmp) (h : AliasReachable al) :
    ∀ t, ∃ n, al (getAlias al n t) = none := by
  induction h with
  | init =>
    intro t
    exact ⟨0, rfl⟩
  | combineStep al u v hv hu hne h ih =>
    intro t
    obtain ⟨n, hn⟩ := ih t
    exact aliasStep_resolves al u v hv hu hne n t hn

/-- C10: `combine(u, v)` updates the alias map exactly by setting the
(previously unset) alias of `v` to `u`; and for every alias map reachable
by that discipline, `getAlias` terminates on every temporary: some fuel
reaches a root (an unaliased temporary), and adding more fuel never
changes the result, so the root is unique. -/
theorem combine_alias_acyclic :
    (∀ (s : AState) (u v : Tmp),
      (combine s u v).coalescedTmps = setAlias s.coalescedTmps v u) ∧
    (∀ al, AliasReachable al → ∀ t, ∃ n,
      al (getAlias al n t) = none ∧
      ∀ m, getAlias al (n + m) t = getAlias al n t) := by
  refine ⟨combine_coalescedTmps, fun al h t => ?_⟩
  obtain ⟨n, hn⟩ := aliasReachable_resolves al h t
  refine ⟨n, hn, fun m => ?_⟩
  rw [getAlias_add, getAlias_root_stable _ _ hn]

/-- Witness for C10: after `combine`-steps aliasing tmp 31 into 30 and
then tmp 30 into 32, chasing the alias of 31 terminates at a root. -/
theorem combine_alias_acyclic_witness :
    ∃ n,
      setAlias (setAlias (fun _ => none) ⟨Bank.GP, false, 31⟩ ⟨Bank.GP, false, 30⟩)
          ⟨Bank.GP, false, 30⟩ ⟨Bank.GP, false, 32⟩
        (getAlias
          (setAlias (setAlias (fun _ => none) ⟨Bank.GP, false, 31⟩ ⟨Bank.GP, false, 30⟩)
            ⟨Bank.GP, false, 30⟩ ⟨Bank.GP, false, 32⟩)
          n ⟨Bank.GP, false, 31⟩) = none ∧
      ∀ m,
        getAlias
            (setAlias (setAlias (fun _ => none) ⟨Bank.GP, false, 31⟩ ⟨Bank.GP, false, 30⟩)
              ⟨Bank.GP, false, 30⟩ ⟨Bank.GP, false, 32⟩)
            (n + m) ⟨Bank.GP, false, 31⟩ =
          getAlias
            (setAlias (setAlias (fun _ => none) ⟨Bank.GP, false, 31⟩ ⟨Bank.GP, false, 30⟩)
              ⟨Bank.GP, false, 30⟩ ⟨Bank.GP, false, 32⟩)
            n ⟨Bank.GP, false, 31⟩ :=
  combine_alias_acyclic.2 _
    (AliasReachable.combineStep _ ⟨Bank.GP, false, 32⟩ ⟨Bank.GP, false, 30⟩
      (by decide) (by decide) (by decide)
      (AliasReachable.combineStep _ ⟨Bank.GP, false, 30⟩ ⟨Bank.GP, false, 31⟩
        rfl rfl (by decide) AliasReachable.init))
    ⟨Bank.GP, false, 31⟩

/-! ## Coloring (`assignColors`) -/

/-- The `coloredRegisters` accumulation of `assignColors`: for each
adjacent of the popped tmp, forbid the alias's physical register if the
alias is precolored, else the alias's assigned color if it has one.
Registers are identified by their index. -/
def forbiddenRegisters (s : AState) (fuel : Nat) (colors : Tmp → Option Nat)
    (tmp : Tmp) : List Nat :=
  (s.adjacencyList tmp).foldl
    (fun coloredRegisters adjacentTmp =>
      if (getAlias s.coalescedTmps fuel adjacentTmp).isReg then
        (getAlias s.coalescedTmps fuel adjacentTmp).idx :: coloredRegisters
      else
        match colors (getAlias s.coalescedTmps fuel adjacentTmp) with
        | some reg => reg :: coloredRegisters
        | none => coloredRegisters)
    []

/-- The scan of `registersInPriorityOrder` for the first register not in
`coloredRegisters`. -/
def firstAvailableReg : List Nat → List Nat → Option Nat
  | [], _ => none
  | reg :: rest, coloredRegisters =>
    if reg ∈ coloredRegisters then firstAvailableReg rest coloredRegisters
    else some reg

/-- The `while (!m_selectStack.isEmpty())` loop of `assignColors`,
processing the already-reversed stack: color each tmp with the first
available register or add it to the spilled set. -/
def assignColorsLoop (s : AState) (fuel : Nat) (regs : List Nat) :
    List Tmp → (Tmp → Option Nat) → List Tmp → ((Tmp → Option Nat) × List Tmp)
  | [], colors, spilled => (colors, spilled)
  | tmp :: rest, colors, spilled =>
    match firstAvailableReg regs (forbiddenRegisters s fuel colors tmp) with
    | some reg =>
      assignColorsLoop s fuel regs rest (updateFn colors tmp (some reg)) spilled
    | none => assignColorsLoop s fuel regs rest colors (spilled ++ [tmp])

/-- `IteratedRegisterCoalescingAllocator::assignColors`: pop the whole
select stack, then — `if (!m_spilledTmp.isEmpty()) m_coloredTmp.clear();` —
discard the entire color map when anything spilled. -/
def assignColors (s : AState) (fuel : Nat) (regs : List Nat) :
    (Tmp → Option Nat) × List Tmp :=
  if (assignColorsLoop s fuel regs s.selectStack.reverse
      (fun _ => none) []).2.isEmpty then
    assignColorsLoop s fuel regs s.selectStack.reverse (fun _ => none) []
  else
    (fun _ => none,
      (assignColorsLoop s fuel regs s.selectStack.reverse (fun _ => none) []).2)

/-- The outcome of one round of `iteratedRegisterCoalescingOnType`: either
the program is rewritten with the colors, or spill/fill code is inserted
and the loop restarts. -/
inductive RoundResult
  | rewrote (colors : Tmp → Option Nat)
  | respill (spilled : List Tmp)

/-- One round of `iteratedRegisterCoalescingOnType` after `allocate()`:
`assignRegisterToTmpInProgram` runs iff `spilledTmp()` is empty, otherwise
`addSpillAndFillToProgram` runs. -/
def onTypeRound (s : AState) (fuel : Nat) (regs : List Nat) : RoundResult :=
  if (assignColors s fuel regs).2.isEmpty then .rewrote (assignColors s fuel regs).1
  else .respill (assignColors s fuel regs).2

/-- Whether the round produced the colored program. -/
def roundRewrote (r : RoundResult) : Bool :=
  match r with
  | .rewrote _ => true
  | .respill _ => false

/-- C8: if anything is in the spill set after popping the whole select
stack, the entire color map is discarded — every temporary maps to `none` —
and the round does not produce a colored program; the colored program is
produced only when the spill set is empty. -/
theorem assignColors_no_partial (s : AState) (fuel : Nat) (regs : List Nat)
    (t : Tmp) (h : (assignColors s fuel regs).2 ≠ []) :
    (assignColors s fuel regs).1 t = none ∧
    roundRewrote (onTypeRound s fuel regs) = false := by
  by_cases he : (assignColorsLoop s fuel regs s.selectStack.reverse
      (fun _ => none) []).2.isEmpty = true
  · exfalso
    apply h
    unfold assignColors
    rw [if_pos he]
    exact List.isEmpty_iff.mp he
  · have hcolors : (assignColors s fuel regs).1 t = none := by
      unfold assignColors
      rw [if_neg he]
    refine ⟨hcolors, ?_⟩
    unfold onTypeRound
    rw [if_neg (fun habs => h (List.isEmpty_iff.mp habs))]
    rfl

/-- A coloring state with one stacked tmp and no register to give it. -/
def spillColorState : AState :=
  ⟨0, [], fun _ => [], fun _ => 0, fun _ => [], fun _ => none,
   fun _ => false, [⟨.GP, false, 40⟩], [], [], [], [], []⟩

/-- Witness for C8: with an empty priority list the stacked tmp spills,
the color map is discarded and no colored program is produced. -/
theorem assignColors_no_partial_witness :
    (assignColors spillColorState 0 []).1 ⟨.GP, false, 40⟩ = none ∧
    roundRewrote (onTypeRound spillColorState 0 []) = false :=
  assignColors_no_partial spillColorState 0 [] ⟨.GP, false, 40⟩ (by decide)

/-! ## The bank driver (`iteratedRegisterCoalescing`) -/

/-- The observable outcome of one coupled round: whether each bank's
allocator ended with a non-empty `spilledTmp()`.  The driver's control flow
depends only on these booleans, so the rounds are abstracted as an oracle
indexed by the round number. -/
structure BankRound where
  gpSpilled : Bool
  fpSpilled : Bool
deriving DecidableEq, Repr

/-- The `while (!gpIsColored && !fpIsColored)` loop of
`iteratedRegisterCoalescing`: run a coupled round (one shared liveness
computation per round), set each bank's colored flag from that round's
outcome, and repeat while both banks remain uncolored.  Returns the index
one past the last round run together with the final flags; `fuel` bounds
the loop (on exhaustion both banks count as uncolored). -/
def coupledPhase (o : Nat → BankRound) : Nat → Nat → Nat × Bool × Bool
  | 0, i => (i, false, false)
  | fuel + 1, i =>
    if !(!(o i).gpSpilled) && !(!(o i).fpSpilled) then
      coupledPhase o fuel (i + 1)
    else (i + 1, !(o i).gpSpilled, !(o i).fpSpilled)

/-- The trace of `iteratedRegisterCoalescing`: how many coupled rounds ran,
the flags, and which banks fall back to `iteratedRegisterCoalescingOnType`
(`if (!gpIsColored) ...; if (!fpIsColored) ...`). -/
structure DriverTrace where
  coupledRounds : Nat
  gpIsColored : Bool
  fpIsColored : Bool
  ranUncoupledGP : Bool
  ranUncoupledFP : Bool
deriving DecidableEq, Repr

/-- See `DriverTrace`. -/
def driverTrace (o : Nat → BankRound) (fuel : Nat) : DriverTrace :=
  ⟨(coupledPhase o fuel 0).1, (coupledPhase o fuel 0).2.1,
   (coupledPhase o fuel 0).2.2,
   !(coupledPhase o fuel 0).2.1, !(coupledPhase o fuel 0).2.2⟩

/-- An outcome oracle where both banks spill in the first round and color
in the second. -/
def bothSpillOnce : Nat → BankRound :=
  fun i => if i = 0 then ⟨true, true⟩ else ⟨false, false⟩

/-- C4 counterexample: when both banks spill in the first round the entry
point runs a *second* coupled round (the `while` loop repeats while both
banks keep spilling), so it does not run exactly one coupled round. -/
theorem driver_two_coupled_rounds :
    (driverTrace bothSpillOnce 10).coupledRounds = 2 := by
  decide

lemma coupledPhase_spec (o : Nat → BankRound) :
    ∀ (fuel i n : Nat) (gpC fpC : Bool),
      coupledPhase o fuel i = (n, gpC, fpC) →
        i ≤ n ∧
        (∀ j, i ≤ j → j + 1 < n → (o j).gpSpilled = true ∧ (o j).fpSpilled = true) ∧
        ((gpC || fpC) = true →
          i < n ∧ gpC = !(o (n - 1)).gpSpilled ∧ fpC = !(o (n - 1)).fpSpilled) := by
  intro fuel
  induction fuel with
  | zero =>
    intro i n gpC fpC h
    unfold coupledPhase at h
    have hn : n = i := (congrArg Prod.fst h).symm
    have hgp : gpC = false := (congrArg (fun p => p.2.1) h).symm
    have hfp : fpC = false := (congrArg (fun p => p.2.2) h).symm
    subst hn hgp hfp
    refine ⟨Nat.le_refl _, fun j hj hjn => absurd hjn (by omega), fun habs => ?_⟩
    exact absurd habs (by simp)
  | succ fuel ih =>
    intro i n gpC fpC h
    unfold coupledPhase at h
    by_cases hc : (!(!(o i).gpSpilled) && !(!(o i).fpSpilled)) = true
    · rw [if_pos hc] at h
      obtain ⟨h1, h2, h3⟩ := ih (i + 1) n gpC fpC h
      have hspill : (o i).gpSpilled = true ∧ (o i).fpSpilled = true := by
        rcases Bool.and_eq_true_iff.mp hc with ⟨ha, hb⟩
        rw [Bool.not_not] at ha hb
        exact ⟨ha, hb⟩
      refine ⟨by omega, ?_, ?_⟩
      · intro j hj hjn
        by_cases hji : j = i
        · subst hji
          exact hspill
        · exact h2 j (by omega) hjn
      · intro hcol
        obtain ⟨hlt, hg, hf⟩ := h3 hcol
        exact ⟨by omega, hg, hf⟩
    · rw [if_neg hc] at h
      have hn : n = i + 1 := (congrArg Prod.fst h).symm
      have hgp : gpC = !(o i).gpSpilled := (congrArg (fun p => p.2.1) h).symm
      have hfp : fpC = !(o i).fpSpilled := (congrArg (fun p => p.2.2) h).symm
      subst hn
      refine ⟨by omega, fun j hj hjn => absurd hjn (by omega), fun _ => ?_⟩
      refine ⟨by omega, ?_, ?_⟩
      · rw [hgp]
        have : i + 1 - 1 = i := by omega
        rw [this]
      · rw [hfp]
        have : i + 1 - 1 = i := by omega
        rw [this]

/-- C4 (amended): the entry point repeats the coupled round — one shared
liveness computation per round — *while both banks keep spilling*; before
the last coupled round every round had both banks spill, the flags record
the last round's outcome, and exactly the banks that did not color in the
coupled phase are re-run by their own uncoupled per-bank loop. -/
theorem driver_coupled_then_uncoupled (o : Nat → BankRound) (fuel n : Nat)
    (gpC fpC : Bool) (h : coupledPhase o fuel 0 = (n, gpC, fpC)) :
    (∀ j, j + 1 < n → (o j).gpSpilled = true ∧ (o j).fpSpilled = true) ∧
    ((gpC || fpC) = true →
      0 < n ∧ gpC = !(o (n - 1)).gpSpilled ∧ fpC = !(o (n - 1)).fpSpilled) ∧
    (driverTrace o fuel).ranUncoupledGP = !gpC ∧
    (driverTrace o fuel).ranUncoupledFP = !fpC := by
  obtain ⟨h1, h2, h3⟩ := coupledPhase_spec o fuel 0 n gpC fpC h
  refine ⟨fun j hj => h2 j (Nat.zero_le _) hj, h3, ?_, ?_⟩
  · unfold driverTrace
    rw [h]
  · unfold driverTrace
    rw [h]

/-- Witness for the amended C4 theorem on the two-round oracle. -/
theorem driver_coupled_then_uncoupled_witness :
    (driverTrace bothSpillOnce 10).ranUncoupledGP = !true ∧
    (driverTrace bothSpillOnce 10).ranUncoupledFP = !true :=
  ⟨(driver_coupled_then_uncoupled bothSpillOnce 10 2 true true (by decide)).2.2.1,
   (driver_coupled_then_uncoupled bothSpillOnce 10 2 true true (by decide)).2.2.2⟩

/-! ## Spill insertion (`addSpillAndFillToProgram`) -/

/-- An argument of an instruction during spill insertion: a tmp argument
(with the role and bank `forEachTmp` reports for it), a stack-slot
reference, or some other argument. -/
inductive SArg
  | tmpA (t : Tmp) (role : Role) (bank : Bank)
  | stackA (slot : Nat)
  | otherA (n : Nat)
deriving DecidableEq, Repr

/-- An instruction during spill insertion: its arguments and its
`admitsStack(i)` predicate. -/
structure SInst where
  args : List SArg
  admitsStack : Nat → Bool

/-- One endpoint of an inserted fill/spill move. -/
inductive MoveEnd
  | stackE (slot : Nat)
  | tmpE (t : Tmp)
deriving DecidableEq, Repr

/-- An inserted fill (before the instruction) or spill (after it). -/
structure MoveRec where
  src : MoveEnd
  dst : MoveEnd
deriving DecidableEq, Repr

/-- The first loop of `addSpillAndFillToProgram` for one argument slot:
`if (arg.isTmp() && arg.type() == type && !arg.isReg())` and the tmp has a
stack slot, then `if (inst.admitsStack(i)) arg = Arg::stack(...)`. -/
def phase1Arg (type : Bank) (stackSlots : Tmp → Option Nat) (admits : Bool)
    (arg : SArg) : SArg :=
  match arg with
  | .tmpA t role bank =>
    if bank = type ∧ t.isReg = false then
      match stackSlots t with
      | none => .tmpA t role bank
      | some slot => if admits then .stackA slot else .tmpA t role bank
    else .tmpA t role bank
  | a => a

/-- The first loop of `addSpillAndFillToProgram` over all argument slots,
`i0` being the index of the first one. -/
def phase1 (type : Bank) (stackSlots : Tmp → Option Nat) (admits : Nat → Bool) :
    List SArg → Nat → List SArg
  | [], _ => []
  | a :: rest, i =>
    phase1Arg type stackSlots (admits i) a ::
      phase1 type stackSlots admits rest (i + 1)

/-- The `forEachTmp` lambda of `addSpillAndFillToProgram` for one tmp:
skip precolored or other-bank tmps and tmps without a stack slot;
otherwise, if the role uses the tmp, mint a fresh tmp (numbered by the
counter `c`, standing for `code.newTmp(type)`), insert a fill before the
instruction and rewrite the argument; if the role defines the tmp, insert
a spill of the (possibly fresh) tmp after the instruction. -/
def phase2Arg (type : Bank) (stackSlots : Tmp → Option Nat) (arg : SArg)
    (c : Nat) : SArg × List MoveRec × List MoveRec × Nat :=
  match arg with
  | .tmpA t role bank =>
    if t.isReg = true ∨ bank ≠ type then (.tmpA t role bank, [], [], c)
    else
      match stackSlots t with
      | none => (.tmpA t role bank, [], [], c)
      | some slot =>
        if isUse role then
          (.tmpA ⟨type, false, c⟩ role bank,
           [⟨.stackE slot, .tmpE ⟨type, false, c⟩⟩],
           if isDef role then [⟨.tmpE ⟨type, false, c⟩, .stackE slot⟩] else [],
           c + 1)
        else
          (.tmpA t role bank, [],
           if isDef role then [⟨.tmpE t, .stackE slot⟩] else [], c)
  | a => (a, [], [], c)

/-- The `forEachTmp` pass over the whole argument list, threading the
fresh-tmp counter and collecting the fills and spills in order. -/
def phase2 (type : Bank) (stackSlots : Tmp → Option Nat) :
    List SArg → Nat → List SArg × List MoveRec × List MoveRec × Nat
  | [], c => ([], [], [], c)
  | a :: rest, c =>
    ((phase2Arg type stackSlots a c).1 ::
        (phase2 type stackSlots rest (phase2Arg type stackSlots a c).2.2.2).1,
      (phase2Arg type stackSlots a c).2.1 ++
        (phase2 type stackSlots rest (phase2Arg type stackSlots a c).2.2.2).2.1,
      (phase2Arg type stackSlots a c).2.2.1 ++
        (phase2 type stackSlots rest (phase2Arg type stackSlots a c).2.2.2).2.2.1,
      (phase2 type stackSlots rest (phase2Arg type stackSlots a c).2.2.2).2.2.2)

/-- `addSpillAndFillToProgram` restricted to one instruction: the direct
stack-replacement loop, then the fill/spill `forEachTmp` pass; returns the
fills to insert before, the rewritten instruction, the spills to insert
after, and the new fresh-tmp counter. -/
def spillRewriteInst (type : Bank) (stackSlots : Tmp → Option Nat)
    (inst : SInst) (c : Nat) : List MoveRec × SInst × List MoveRec × Nat :=
  ((phase2 type stackSlots (phase1 type stackSlots inst.admitsStack inst.args 0) c).2.1,
   ⟨(phase2 type stackSlots (phase1 type stackSlots inst.admitsStack inst.args 0) c).1,
    inst.admitsStack⟩,
   (phase2 type stackSlots (phase1 type stackSlots inst.admitsStack inst.args 0) c).2.2.1,
   (phase2 type stackSlots (phase1 type stackSlots inst.admitsStack inst.args 0) c).2.2.2)

lemma phase1_getElem (type : Bank) (stackSlots : Tmp → Option Nat)
    (admits : Nat → Bool) :
    ∀ (args : List SArg) (i0 i : Nat),
      (phase1 type stackSlots admits args i0)[i]? =
        (args[i]?).map (phase1Arg type stackSlots (admits (i0 + i))) := by
  intro args
  induction args with
  | nil =>
    intro i0 i
    simp [phase1]
  | cons a rest ih =>
    intro i0 i
    cases i with
    | zero =>
      simp [phase1]
    | succ i =>
      have h1 : phase1 type stackSlots admits (a :: rest) i0 =
          phase1Arg type stackSlots (admits i0) a ::
            phase1 type stackSlots admits rest (i0 + 1) := rfl
      rw [h1, List.getElem?_cons_succ, List.getElem?_cons_succ, ih (i0 + 1) i]
      have harith : i0 + 1 + i = i0 + (i + 1) := by omega
      rw [harith]

lemma phase2_getElem (type : Bank) (stackSlots : Tmp → Option Nat) :
    ∀ (args : List SArg) (c i : Nat),
      ∃ c2, (phase2 type stackSlots args c).1[i]? =
        (args[i]?).map (fun a => (phase2Arg type stackSlots a c2).1) := by
  intro args
  induction args with
  | nil =>
    intro c i
    exact ⟨c, by simp [phase2]⟩
  | cons a rest ih =>
    intro c i
    cases i with
    | zero =>
      exact ⟨c, by simp [phase2]⟩
    | succ i =>
      obtain ⟨c2, hc2⟩ := ih (phase2Arg type stackSlots a c).2.2.2 i
      refine ⟨c2, ?_⟩
      have h1 : (phase2 type stackSlots (a :: rest) c).1 =
          (phase2Arg type stackSlots a c).1 ::
            (phase2 type stackSlots rest (phase2Arg type stackSlots a c).2.2.2).1 := rfl
      rw [h1, List.getElem?_cons_succ, List.getElem?_cons_succ, hc2]

lemma phase2_getElem_moves (type : Bank) (stackSlots : Tmp → Option Nat) :
    ∀ (args : List SArg) (c i : Nat) (a : SArg), args[i]? = some a →
      ∃ c2,
        (phase2 type stackSlots args c).1[i]? =
          some ((phase2Arg type stackSlots a c2).1) ∧
        (∀ mr, mr ∈ (phase2Arg type stackSlots a c2).2.1 →
          mr ∈ (phase2 type stackSlots args c).2.1) ∧
        (∀ mr, mr ∈ (phase2Arg type stackSlots a c2).2.2.1 →
          mr ∈ (phase2 type stackSlots args c).2.2.1) := by
  intro args
  induction args with
  | nil =>
    intro c i a ha
    rw [List.getElem?_nil] at ha
    exact Option.noConfusion ha
  | cons a0 rest ih =>
    intro c i a ha
    cases i with
    | zero =>
      rw [List.getElem?_cons_zero] at ha
      cases Option.some.inj ha
      refine ⟨c, ?_, ?_, ?_⟩
      · have h1 : (phase2 type stackSlots (a0 :: rest) c).1 =
            (phase2Arg type stackSlots a0 c).1 ::
              (phase2 type stackSlots rest
                (phase2Arg type stackSlots a0 c).2.2.2).1 := rfl
        rw [h1, List.getElem?_cons_zero]
      · intro mr hmr
        have h2 : (phase2 type stackSlots (a0 :: rest) c).2.1 =
            (phase2Arg type stackSlots a0 c).2.1 ++
              (phase2 type stackSlots rest
                (phase2Arg type stackSlots a0 c).2.2.2).2.1 := rfl
        rw [h2]
        exact List.mem_append_left _ hmr
      · intro mr hmr
        have h3 : (phase2 type stackSlots (a0 :: rest) c).2.2.1 =
            (phase2Arg type stackSlots a0 c).2.2.1 ++
              (phase2 type stackSlots rest
                (phase2Arg type stackSlots a0 c).2.2.2).2.2.1 := rfl
        rw [h3]
        exact List.mem_append_left _ hmr
    | succ i =>
      rw [List.getElem?_cons_succ] at ha
      obtain ⟨c2, h1, h2, h3⟩ :=
        ih (phase2Arg type stackSlots a0 c).2.2.2 i a ha
      refine ⟨c2, ?_, ?_, ?_⟩
      · have hh : (phase2 type stackSlots (a0 :: rest) c).1 =
            (phase2Arg type stackSlots a0 c).1 ::
              (phase2 type stackSlots rest
                (phase2Arg type stackSlots a0 c).2.2.2).1 := rfl
        rw [hh, List.getElem?_cons_succ]
        exact h1
      · intro mr hmr
        have hh : (phase2 type stackSlots (a0 :: rest) c).2.1 =
            (phase2Arg type stackSlots a0 c).2.1 ++
              (phase2 type stackSlots rest
                (phase2Arg type stackSlots a0 c).2.2.2).2.1 := rfl
        rw [hh]
        exact List.mem_append_right _ (h2 mr hmr)
      · intro mr hmr
        have hh : (phase2 type stackSlots (a0 :: rest) c).2.2.1 =
            (phase2Arg type stackSlots a0 c).2.2.1 ++
              (phase2 type stackSlots rest
                (phase2Arg type stackSlots a0 c).2.2.2).2.2.1 := rfl
        rw [hh]
        exact List.mem_append_right _ (h3 mr hmr)

lemma phase2Arg_tmp_shape (type : Bank) (stackSlots : Tmp → Option Nat)
    (t : Tmp) (role : Role) (bank : Bank) (c : Nat) :
    ∃ t2, (phase2Arg type stackSlots (SArg.tmpA t role bank) c).1 =
      SArg.tmpA t2 role bank := by
  by_cases h1 : t.isReg = true ∨ bank ≠ type
  · exact ⟨t, by simp [phase2Arg, h1]⟩
  · cases hsl : stackSlots t with
    | none => exact ⟨t, by simp [phase2Arg, h1, hsl]⟩
    | some slot =>
      by_cases h2 : isUse role = true
      · exact ⟨⟨type, false, c⟩, by simp [phase2Arg, h1, hsl, h2]⟩
      · exact ⟨t, by simp [phase2Arg, h1, hsl, h2]⟩

lemma phase2Arg_stack_iff (type : Bank) (stackSlots : Tmp → Option Nat)
    (arg : SArg) (c slot : Nat) :
    (phase2Arg type stackSlots arg c).1 = SArg.stackA slot ↔
      arg = SArg.stackA slot := by
  cases arg with
  | tmpA t role bank =>
    obtain ⟨t2, ht2⟩ := phase2Arg_tmp_shape type stackSlots t role bank c
    rw [ht2]
    constructor
    · intro h
      exact SArg.noConfusion h
    · intro h
      exact SArg.noConfusion h
  | stackA s => simp [phase2Arg]
  | otherA n => simp [phase2Arg]

lemma phase1Arg_spilled (type : Bank) (stackSlots : Tmp → Option Nat)
    (admits : Bool) (t : Tmp) (role : Role) (slot : Nat)
    (hreg : t.isReg = false) (hslot : stackSlots t = some slot) :
    phase1Arg type stackSlots admits (SArg.tmpA t role type) =
      if admits then SArg.stackA slot else SArg.tmpA t role type := by
  show (if type = type ∧ t.isReg = false then
      match stackSlots t with
      | none => SArg.tmpA t role type
      | some slot => if admits then SArg.stackA slot else SArg.tmpA t role type
    else SArg.tmpA t role type) = _
  rw [if_pos ⟨rfl, hreg⟩, hslot]

lemma phase2Arg_spilled (type : Bank) (stackSlots : Tmp → Option Nat)
    (t : Tmp) (role : Role) (slot : Nat) (c2 : Nat)
    (hreg : t.isReg = false) (hslot : stackSlots t = some slot) :
    phase2Arg type stackSlots (SArg.tmpA t role type) c2 =
      if isUse role then
        (SArg.tmpA ⟨type, false, c2⟩ role type,
         [⟨.stackE slot, .tmpE ⟨type, false, c2⟩⟩],
         if isDef role then [⟨.tmpE ⟨type, false, c2⟩, .stackE slot⟩] else [],
         c2 + 1)
      else
        (SArg.tmpA t role type, [],
         if isDef role then [⟨.tmpE t, .stackE slot⟩] else [], c2) := by
  have hcond : ¬(t.isReg = true ∨ type ≠ type) := by
    rintro (h1 | h2)
    · rw [hreg] at h1
      exact Bool.noConfusion h1
    · exact h2 rfl
  show (if t.isReg = true ∨ type ≠ type then
      ((SArg.tmpA t role type : SArg), ([] : List MoveRec), ([] : List MoveRec), c2)
    else
      match stackSlots t with
      | none => (SArg.tmpA t role type, [], [], c2)
      | some slot =>
        if isUse role then
          (SArg.tmpA ⟨type, false, c2⟩ role type,
           [⟨.stackE slot, .tmpE ⟨type, false, c2⟩⟩],
           if isDef role then [⟨.tmpE ⟨type, false, c2⟩, .stackE slot⟩] else [],
           c2 + 1)
        else
          (SArg.tmpA t role type, [],
           if isDef role then [⟨.tmpE t, .stackE slot⟩] else [], c2)) = _
  rw [if_neg hcond, hslot]

/-- C2 (amended): during spill insertion, an argument slot holding a
spilled temporary of the bank is replaced directly by the stack-slot
reference exactly when `admitsStack(i)` is true — the argument's role is
not consulted for the direct replacement.  When `admitsStack(i)` is false,
the fill/spill path applies instead: if the role uses the temporary, the
argument is rewritten to a freshly minted temporary and a fill from the
stack slot into it is inserted before the instruction; if the role defines
the temporary, a spill into the stack slot is inserted after the
instruction, from the fresh temporary if a fill was made and from the
original temporary otherwise. -/
theorem spillRewrite_direct_iff_admitsStack (type : Bank)
    (stackSlots : Tmp → Option Nat) (inst : SInst) (c i : Nat) (t : Tmp)
    (role : Role) (slot : Nat)
    (hargs : inst.args[i]? = some (SArg.tmpA t role type))
    (hreg : t.isReg = false) (hslot : stackSlots t = some slot) :
    ((spillRewriteInst type stackSlots inst c).2.1.args[i]? =
        some (SArg.stackA slot) ↔
      inst.admitsStack i = true) ∧
    (inst.admitsStack i = false →
      ∃ c2,
        (isUse role = true →
          (spillRewriteInst type stackSlots inst c).2.1.args[i]? =
            some (SArg.tmpA ⟨type, false, c2⟩ role type) ∧
          MoveRec.mk (MoveEnd.stackE slot) (MoveEnd.tmpE ⟨type, false, c2⟩) ∈
            (spillRewriteInst type stackSlots inst c).1 ∧
          (isDef role = true →
            MoveRec.mk (MoveEnd.tmpE ⟨type, false, c2⟩) (MoveEnd.stackE slot) ∈
              (spillRewriteInst type stackSlots inst c).2.2.1)) ∧
        (isUse role = false →
          (spillRewriteInst type stackSlots inst c).2.1.args[i]? =
            some (SArg.tmpA t role type) ∧
          (isDef role = true →
            MoveRec.mk (MoveEnd.tmpE t) (MoveEnd.stackE slot) ∈
              (spillRewriteInst type stackSlots inst c).2.2.1))) := by
  constructor
  · obtain ⟨c2, hc2⟩ := phase2_getElem type stackSlots
      (phase1 type stackSlots inst.admitsStack inst.args 0) c i
    have hres : (spillRewriteInst type stackSlots inst c).2.1.args[i]? =
        some ((phase2Arg type stackSlots
          (phase1Arg type stackSlots (inst.admitsStack i) (SArg.tmpA t role type))
          c2).1) := by
      show (phase2 type stackSlots
          (phase1 type stackSlots inst.admitsStack inst.args 0) c).1[i]? = _
      rw [hc2, phase1_getElem, hargs]
      rw [Nat.zero_add]
      rfl
    rw [hres]
    constructor
    · intro h
      have hp2 := Option.some.inj h
      rw [phase2Arg_stack_iff] at hp2
      by_cases hadm : inst.admitsStack i = true
      · exact hadm
      · exfalso
        rw [phase1Arg_spilled type stackSlots _ t role slot hreg hslot,
          if_neg hadm] at hp2
        exact SArg.noConfusion hp2
    · intro hadm
      rw [phase1Arg_spilled type stackSlots _ t role slot hreg hslot, if_pos hadm]
      rfl
  · intro hadm
    have hargs1 : (phase1 type stackSlots inst.admitsStack inst.args 0)[i]? =
        some (SArg.tmpA t role type) := by
      rw [phase1_getElem, hargs, Nat.zero_add]
      show some (phase1Arg type stackSlots (inst.admitsStack i)
        (SArg.tmpA t role type)) = _
      rw [phase1Arg_spilled type stackSlots _ t role slot hreg hslot,
        if_neg (by simp [hadm])]
    obtain ⟨c2, harg, hfills, hspills⟩ := phase2_getElem_moves type stackSlots
      (phase1 type stackSlots inst.admitsStack inst.args 0) c i
      (SArg.tmpA t role type) hargs1
    have heq := phase2Arg_spilled type stackSlots t role slot c2 hreg hslot
    refine ⟨c2, ?_, ?_⟩
    · intro huse
      rw [if_pos huse] at heq
      refine ⟨?_, ?_, ?_⟩
      · show (phase2 type stackSlots
            (phase1 type stackSlots inst.admitsStack inst.args 0) c).1[i]? = _
        rw [harg, heq]
      · apply hfills
        rw [heq]
        exact List.mem_singleton.mpr rfl
      · intro hdef
        apply hspills
        rw [heq]
        show MoveRec.mk (MoveEnd.tmpE ⟨type, false, c2⟩) (MoveEnd.stackE slot) ∈
          (if isDef role then
            [MoveRec.mk (MoveEnd.tmpE ⟨type, false, c2⟩) (MoveEnd.stackE slot)]
          else [])
        rw [if_pos hdef]
        exact List.mem_singleton.mpr rfl
    · intro huse
      rw [if_neg (by simp [huse])] at heq
      refine ⟨?_, ?_⟩
      · show (phase2 type stackSlots
            (phase1 type stackSlots inst.admitsStack inst.args 0) c).1[i]? = _
        rw [harg, heq]
      · intro hdef
        apply hspills
        rw [heq]
        show MoveRec.mk (MoveEnd.tmpE t) (MoveEnd.stackE slot) ∈
          (if isDef role then
            [MoveRec.mk (MoveEnd.tmpE t) (MoveEnd.stackE slot)]
          else [])
        rw [if_pos hdef]
        exact List.mem_singleton.mpr rfl

/-- The spilled temporary of the C2 counterexample. -/
def spilledT : Tmp := ⟨.GP, false, 50⟩

/-- A one-argument instruction whose only argument reads *and* writes
`spilledT` (role `UseDef`), with `admitsStack` true everywhere. -/
def useDefInst : SInst :=
  ⟨[.tmpA spilledT .UseDef .GP], fun _ => true⟩

/-- The stack-slot map assigning slot 0 to `spilledT`. -/
def slots50 : Tmp → Option Nat :=
  fun t => if t = spilledT then some 0 else none

/-- C2 counterexample: the `UseDef` argument is replaced *directly* by the
stack reference (no fresh temporary, no fill, no spill) because the code
only tests `admitsStack(i)` — the role is never consulted — contradicting
the claim that a pure `Use` or pure `Def` role is also required. -/
theorem spillRewrite_replaces_useDef_directly :
    (spillRewriteInst .GP slots50 useDefInst 100).2.1.args = [SArg.stackA 0] ∧
    (spillRewriteInst .GP slots50 useDefInst 100).1 = [] ∧
    (spillRewriteInst .GP slots50 useDefInst 100).2.2.1 = [] ∧
    isUse .UseDef = true ∧ isDef .UseDef = true ∧
    useDefInst.admitsStack 0 = true := by
  decide

/-- Like `useDefInst` but with `admitsStack` false everywhere, so the
fill/spill path applies. -/
def useDefNoStack : SInst :=
  ⟨[.tmpA spilledT .UseDef .GP], fun _ => false⟩

/-- Witness for the amended C2 theorem at the `UseDef` instruction whose
slot does not admit a stack operand: it exercises both the direct
replacement iff and the fill/spill clause. -/
theorem spillRewrite_direct_iff_admitsStack_witness :
    ((spillRewriteInst .GP slots50 useDefNoStack 100).2.1.args[0]? =
        some (SArg.stackA 0) ↔
      useDefNoStack.admitsStack 0 = true) ∧
    (useDefNoStack.admitsStack 0 = false →
      ∃ c2,
        (isUse .UseDef = true →
          (spillRewriteInst .GP slots50 useDefNoStack 100).2.1.args[0]? =
            some (SArg.tmpA ⟨.GP, false, c2⟩ .UseDef .GP) ∧
          MoveRec.mk (MoveEnd.stackE 0) (MoveEnd.tmpE ⟨.GP, false, c2⟩) ∈
            (spillRewriteInst .GP slots50 useDefNoStack 100).1 ∧
          (isDef .UseDef = true →
            MoveRec.mk (MoveEnd.tmpE ⟨.GP, false, c2⟩) (MoveEnd.stackE 0) ∈
              (spillRewriteInst .GP slots50 useDefNoStack 100).2.2.1)) ∧
        (isUse .UseDef = false →
          (spillRewriteInst .GP slots50 useDefNoStack 100).2.1.args[0]? =
            some (SArg.tmpA spilledT .UseDef .GP) ∧
          (isDef .UseDef = true →
            MoveRec.mk (MoveEnd.tmpE spilledT) (MoveEnd.stackE 0) ∈
              (spillRewriteInst .GP slots50 useDefNoStack 100).2.2.1))) :=
  spillRewrite_direct_iff_admitsStack .GP slots50 useDefNoStack 100 0 spilledT
    .UseDef 0 rfl rfl rfl
